import Mathlib

/-!
Verification of the laserfocus-host core against its specification.

The Python source is shallowly embedded:
* text is `List Char` (Python `str`),
* `json.loads` (an external library function) is an abstract parameter
  `JDecoder`, returning `none` when decoding raises,
* `LLMService._parse_stream` becomes `processBuffer` / `parseChunksGo`,
* the orchestrator's `handle_input` becomes a trace-producing function,
* the MCP coordinator's registry becomes an association list.
-/

/-! ## JSON values (abstract result of `json.loads`) -/

/-- A JSON value as produced by a structured decode.  Only the shape matters
to the stream interpreter: it checks `isinstance(tool_data, dict)` and key
membership. -/
inductive JVal where
  | str (s : List Char)
  | num (n : Int)
  | bool (b : Bool)
  | null
  | arr (elems : List JVal)
  | obj (fields : List (List Char × JVal))

/-- Abstract model of `json.loads`: `none` models a raised decode exception. -/
def JDecoder : Type := List Char → Option JVal

/-! ## Response parts yielded by `LLMService._parse_stream` -/

/-- `LLMResponsePart` from `src/core/llm_service.py`: `TextChunk`,
`ToolCallIntent` and `ErrorInfo`.  The distinct `ErrorInfo` messages of the
source are modelled as distinct constructors: `parseError` is the
"Failed to parse/validate tool call JSON." error (carrying the stripped
directive content that the source puts in `details`), `adapterError` is the
"Error receiving data from LLM adapter" error, and `generateError` is the
"Failed to generate LLM response" error of `generate_response`. -/
inductive RPart where
  | text (content : List Char)
  | toolCallIntent (toolName : JVal) (arguments : JVal)
  | parseError (content : List Char)
  | adapterError
  | generateError

/-! ## Delimiters and substring search -/

/-- `self._tool_start_delimiter = "```tool\n"`. -/
def toolStartDelim : List Char := "```tool\n".toList

/-- `self._tool_end_delimiter = "\n```"`. -/
def toolEndDelim : List Char := "\n```".toList

/-- Boolean test that `p` is an initial segment of `s` (the check performed
character by character by Python's substring search). -/
def leadsWith : List Char → List Char → Bool
  | [], _ => true
  | _ :: _, [] => false
  | a :: p, b :: s => a == b && leadsWith p s

/-- `s.find(pat)` of Python: index of the first occurrence of `pat` in `s`,
`none` when absent (Python returns `-1`). -/
def substrPos (pat : List Char) : List Char → Option Nat
  | [] => if leadsWith pat [] then some 0 else none
  | c :: s => if leadsWith pat (c :: s) then some 0 else (substrPos pat s).map (· + 1)

/-- `s.find(pat, start)` of Python. -/
def substrPosFrom (pat s : List Char) (start : Nat) : Option Nat :=
  (substrPos pat (s.drop start)).map (· + start)

theorem leadsWith_length_le {p s : List Char} (h : leadsWith p s = true) :
    p.length ≤ s.length := by
  induction p generalizing s with
  | nil => simp
  | cons a p ih =>
    cases s with
    | nil => simp [leadsWith] at h
    | cons b s =>
      simp only [leadsWith, Bool.and_eq_true] at h
      simpa using ih h.2

theorem leadsWith_append {p s : List Char} (t : List Char)
    (h : p.length ≤ s.length) : leadsWith p (s ++ t) = leadsWith p s := by
  induction p generalizing s with
  | nil => simp [leadsWith]
  | cons a p ih =>
    cases s with
    | nil => simp at h
    | cons b s =>
      simp only [List.cons_append, leadsWith, List.append_eq]
      rw [ih (by simpa using h)]

theorem leadsWith_eq_take {p s : List Char} (h : leadsWith p s = true) :
    s.take p.length = p := by
  induction p generalizing s with
  | nil => simp
  | cons a p ih =>
    cases s with
    | nil => simp [leadsWith] at h
    | cons b s =>
      simp only [leadsWith, Bool.and_eq_true, beq_iff_eq] at h
      simp [List.take, ih h.2, h.1]

theorem substrPos_bound {pat s : List Char} {i : Nat}
    (h : substrPos pat s = some i) : i + pat.length ≤ s.length := by
  induction s generalizing i with
  | nil =>
    simp only [substrPos] at h
    split at h
    · rename_i hl
      cases h
      simpa using leadsWith_length_le hl
    · cases h
  | cons c s ih =>
    simp only [substrPos] at h
    split at h
    · rename_i hl
      cases h
      simpa using leadsWith_length_le hl
    · simp only [Option.map_eq_some'] at h
      obtain ⟨j, hj, rfl⟩ := h
      have := ih hj
      simp only [List.length_cons]
      omega

theorem substrPos_append {pat s : List Char} {i : Nat} (t : List Char)
    (h : substrPos pat s = some i) : substrPos pat (s ++ t) = some i := by
  induction s generalizing i with
  | nil =>
    simp only [substrPos] at h
    split at h
    · rename_i hl
      cases h
      have hp : pat = [] := by
        cases pat with
        | nil => rfl
        | cons a p => simp [leadsWith] at hl
      subst hp
      cases t with
      | nil => simp [substrPos, leadsWith]
      | cons c cs => simp [substrPos, leadsWith]
    · cases h
  | cons c s ih =>
    simp only [substrPos] at h
    split at h
    · rename_i hl
      cases h
      have hlen : pat.length ≤ (c :: s).length := leadsWith_length_le hl
      simp only [List.cons_append, substrPos, List.append_eq]
      rw [show (c :: (s ++ t)) = (c :: s) ++ t by simp, leadsWith_append t hlen, hl]
      simp
    · rename_i hl
      simp only [Option.map_eq_some'] at h
      obtain ⟨j, hj, rfl⟩ := h
      have hlen : pat.length ≤ (c :: s).length := by
        have := substrPos_bound hj
        simp only [List.length_cons]
        omega
      simp only [List.cons_append, substrPos, List.append_eq]
      rw [show (c :: (s ++ t)) = (c :: s) ++ t by simp, leadsWith_append t hlen, if_neg hl]
      simp [ih hj]

theorem substrPos_drop {pat s : List Char} {i : Nat}
    (h : substrPos pat s = some i) : leadsWith pat (s.drop i) = true := by
  induction s generalizing i with
  | nil =>
    simp only [substrPos] at h
    split at h
    · cases h; simpa using ‹leadsWith pat [] = true›
    · cases h
  | cons c s ih =>
    simp only [substrPos] at h
    split at h
    · cases h; simpa using ‹leadsWith pat (c :: s) = true›
    · simp only [Option.map_eq_some'] at h
      obtain ⟨j, hj, rfl⟩ := h
      simpa using ih hj

theorem leadsWith_substrPos_zero {pat s : List Char}
    (h : leadsWith pat s = true) : substrPos pat s = some 0 := by
  cases s with
  | nil => simp [substrPos, h]
  | cons c s => simp [substrPos, h]

theorem substrPosFrom_bound {pat s : List Char} {k i : Nat} (hp : pat ≠ [])
    (h : substrPosFrom pat s k = some i) :
    k ≤ i ∧ i + pat.length ≤ s.length := by
  simp only [substrPosFrom, Option.map_eq_some'] at h
  obtain ⟨j, hj, rfl⟩ := h
  have hb := substrPos_bound hj
  have hk : k ≤ s.length := by
    rcases pat with _ | ⟨a, p⟩
    · exact absurd rfl hp
    · by_contra hk2
      push_neg at hk2
      rw [List.drop_eq_nil_of_le (le_of_lt hk2)] at hj
      simp [substrPos, leadsWith] at hj
  simp only [List.length_drop] at hb
  omega

/-! ## Directive decoding (`_parse_stream` lines 229–236) -/

/-- Python `str.strip()`: remove leading and trailing whitespace. -/
def stripChars (s : List Char) : List Char :=
  ((s.dropWhile Char.isWhitespace).reverse.dropWhile Char.isWhitespace).reverse

/-- The required key `"tool"`. -/
def jKeyTool : List Char := "tool".toList

/-- The required key `"arguments"`. -/
def jKeyArguments : List Char := "arguments".toList

/-- `k in tool_data` for a decoded JSON object. -/
def jHasKey (fields : List (List Char × JVal)) (k : List Char) : Bool :=
  fields.any (fun f => f.1 == k)

/-- `tool_data[k]` for a decoded JSON object (only evaluated after
`jHasKey` succeeded, so the default is never reached). -/
def jGetKey (fields : List (List Char × JVal)) (k : List Char) : JVal :=
  ((fields.find? (fun f => f.1 == k)).map (fun f => f.2)).getD JVal.null

/-- Lines 229–236 of `llm_service.py`: strip the raw interior, attempt a
structured decode, and either emit a `ToolCallIntent` (decode succeeded,
result is a dict, and both required keys are present) or an `ErrorInfo`
(any exception, including the `ValueError` raised on missing keys). -/
def parseToolDirective (jd : JDecoder) (raw : List Char) : RPart :=
  match jd (stripChars raw) with
  | some (JVal.obj fields) =>
      if jHasKey fields jKeyTool && jHasKey fields jKeyArguments then
        RPart.toolCallIntent (jGetKey fields jKeyTool) (jGetKey fields jKeyArguments)
      else RPart.parseError (stripChars raw)
  | _ => RPart.parseError (stripChars raw)

/-! ## The buffer-draining loop of `_parse_stream` (lines 219–237)

`processBuffer` is the `while True` loop run after a fragment is appended to
the buffer: find the start delimiter (break when absent), emit the preceding
prose as a `TextChunk`, find the end delimiter from index
`len(start_delimiter)` (break when absent, holding the buffer), otherwise
slice out the interior, dispatch it, cut the consumed region off the buffer
and continue.  It returns the parts yielded and the final buffer value. -/

def processBuffer (jd : JDecoder) (buffer : List Char) : List RPart × List Char :=
  match h : substrPos toolStartDelim buffer with
  | none => ([], buffer)
  | some si =>
    match h2 : substrPosFrom toolEndDelim (buffer.drop si) toolStartDelim.length with
    | none =>
      ((if 0 < si then [RPart.text (buffer.take si)] else []), buffer.drop si)
    | some ei =>
      ((if 0 < si then [RPart.text (buffer.take si)] else []) ++
        parseToolDirective jd
          (((buffer.drop si).drop toolStartDelim.length).take (ei - toolStartDelim.length)) ::
        (processBuffer jd ((buffer.drop si).drop (ei + toolEndDelim.length))).1,
       (processBuffer jd ((buffer.drop si).drop (ei + toolEndDelim.length))).2)
termination_by buffer.length
decreasing_by
  all_goals
    have hb1 := substrPos_bound h
    have hb2 : toolStartDelim.length ≤ ei ∧
        ei + toolEndDelim.length ≤ (buffer.drop si).length :=
      substrPosFrom_bound (by decide) h2
    have e1 : toolStartDelim.length = 8 := by decide
    have e2 : toolEndDelim.length = 4 := by decide
    simp only [List.length_drop] at hb2 ⊢
    omega

theorem processBuffer_none {jd : JDecoder} {b : List Char}
    (h : substrPos toolStartDelim b = none) :
    processBuffer jd b = ([], b) := by
  unfold processBuffer
  split
  · rfl
  · rename_i si hsi
    rw [h] at hsi
    cases hsi

theorem processBuffer_noEnd {jd : JDecoder} {b : List Char} {si : Nat}
    (h : substrPos toolStartDelim b = some si)
    (h2 : substrPosFrom toolEndDelim (b.drop si) toolStartDelim.length = none) :
    processBuffer jd b =
      ((if 0 < si then [RPart.text (b.take si)] else []), b.drop si) := by
  unfold processBuffer
  split
  · rename_i hsi
    rw [h] at hsi
    cases hsi
  · rename_i si' hsi
    rw [h] at hsi
    cases hsi
    split
    · rfl
    · rename_i ei hei
      rw [h2] at hei
      cases hei

theorem processBuffer_dir {jd : JDecoder} {b : List Char} {si ei : Nat}
    (h : substrPos toolStartDelim b = some si)
    (h2 : substrPosFrom toolEndDelim (b.drop si) toolStartDelim.length = some ei) :
    processBuffer jd b =
      ((if 0 < si then [RPart.text (b.take si)] else []) ++
        parseToolDirective jd
          (((b.drop si).drop toolStartDelim.length).take (ei - toolStartDelim.length)) ::
          (processBuffer jd ((b.drop si).drop (ei + toolEndDelim.length))).1,
       (processBuffer jd ((b.drop si).drop (ei + toolEndDelim.length))).2) := by
  conv_lhs => rw [processBuffer]
  split
  · rename_i hsi
    rw [h] at hsi
    cases hsi
  · rename_i si' hsi
    rw [h] at hsi
    cases hsi
    split
    · rename_i hei
      rw [h2] at hei
      cases hei
    · rename_i ei' hei
      rw [h2] at hei
      cases hei
      rfl

/-- After the prose before the start delimiter is emitted, the loop behaves
exactly as it would on the buffer beginning at the delimiter. -/
theorem processBuffer_shift {jd : JDecoder} {b : List Char} {si : Nat}
    (h : substrPos toolStartDelim b = some si) :
    processBuffer jd b =
      ((if 0 < si then [RPart.text (b.take si)] else []) ++
        (processBuffer jd (b.drop si)).1,
       (processBuffer jd (b.drop si)).2) := by
  have hz : substrPos toolStartDelim (b.drop si) = some 0 :=
    leadsWith_substrPos_zero (substrPos_drop h)
  cases h2 : substrPosFrom toolEndDelim (b.drop si) toolStartDelim.length with
  | none =>
    rw [processBuffer_noEnd h h2]
    rw [processBuffer_noEnd hz (by simpa using h2)]
    simp
  | some ei =>
    rw [processBuffer_dir h h2]
    rw [processBuffer_dir hz (by simpa using h2)]
    simp

/-- Key incrementality property of the buffer loop: processing `b ++ t`
yields first whatever processing `b` yields, then whatever processing the
held-over buffer extended with `t` yields. -/
theorem processBuffer_append (jd : JDecoder) :
    ∀ (b t : List Char),
      processBuffer jd (b ++ t) =
        ((processBuffer jd b).1 ++
           (processBuffer jd ((processBuffer jd b).2 ++ t)).1,
         (processBuffer jd ((processBuffer jd b).2 ++ t)).2) := by
  have main : ∀ (n : Nat) (b : List Char), b.length = n → ∀ (t : List Char),
      processBuffer jd (b ++ t) =
        ((processBuffer jd b).1 ++
           (processBuffer jd ((processBuffer jd b).2 ++ t)).1,
         (processBuffer jd ((processBuffer jd b).2 ++ t)).2) := by
    intro n
    induction n using Nat.strong_induction_on with
    | _ n ih =>
      intro b hn t
      cases hsi : substrPos toolStartDelim b with
      | none =>
        rw [processBuffer_none hsi]
        simp
      | some si =>
        have hsib : si + toolStartDelim.length ≤ b.length := substrPos_bound hsi
        have hsi' : substrPos toolStartDelim (b ++ t) = some si :=
          substrPos_append t hsi
        have hdrop : (b ++ t).drop si = b.drop si ++ t :=
          List.drop_append_of_le_length (by omega)
        have htake : (b ++ t).take si = b.take si :=
          List.take_append_of_le_length (by omega)
        rcases Nat.eq_zero_or_pos si with hsi0 | hsipos
        · subst hsi0
          -- the start delimiter is at the head of the buffer
          cases hei : substrPosFrom toolEndDelim (b.drop 0) toolStartDelim.length with
          | none =>
            -- stuck waiting for the end delimiter: nothing was emitted
            rw [processBuffer_noEnd hsi hei]
            simp only [List.drop_zero] at *
            simp
          | some ei =>
            have hb2 : toolStartDelim.length ≤ ei ∧
                ei + toolEndDelim.length ≤ (b.drop 0).length :=
              substrPosFrom_bound (by decide) hei
            simp only [List.drop_zero] at hei hb2
            have heid : substrPos toolEndDelim (b.drop toolStartDelim.length) =
                some (ei - toolStartDelim.length) := by
              have := hei
              simp only [substrPosFrom, Option.map_eq_some'] at this
              obtain ⟨j, hj, hji⟩ := this
              have : j = ei - toolStartDelim.length := by omega
              rwa [this] at hj
            have hei' : substrPosFrom toolEndDelim (b ++ t) toolStartDelim.length =
                some ei := by
              have hdk : (b ++ t).drop toolStartDelim.length =
                  b.drop toolStartDelim.length ++ t :=
                List.drop_append_of_le_length (by omega)
              simp only [substrPosFrom, hdk, substrPos_append t heid,
                Option.map_some']
              congr 1
              omega
            rw [processBuffer_dir hsi hei]
            rw [processBuffer_dir hsi' hei']
            simp only [List.drop_zero, Nat.lt_irrefl, if_false, List.nil_append]
            have hraw : ((b ++ t).drop toolStartDelim.length).take
                (ei - toolStartDelim.length) =
                (b.drop toolStartDelim.length).take (ei - toolStartDelim.length) := by
              rw [List.drop_append_of_le_length (by omega)]
              rw [List.take_append_of_le_length (by simp; omega)]
            have hrest : (b ++ t).drop (ei + toolEndDelim.length) =
                b.drop (ei + toolEndDelim.length) ++ t :=
              List.drop_append_of_le_length (by omega)
            rw [hraw, hrest]
            have hlen : (b.drop (ei + toolEndDelim.length)).length < n := by
              subst hn
              simp only [List.length_drop]
              have e1 : toolStartDelim.length = 8 := by decide
              have e2 : toolEndDelim.length = 4 := by decide
              omega
            rw [ih _ hlen _ rfl t]
            simp
        · -- prose precedes the delimiter: shift both sides past it
          rw [processBuffer_shift hsi, processBuffer_shift hsi']
          rw [htake, hdrop]
          have hlen : (b.drop si).length < n := by
            subst hn
            simp only [List.length_drop]
            omega
          rw [ih _ hlen _ rfl t]
          simp [if_pos hsipos]
  intro b t
  exact main b.length b rfl t

/-- The buffer held over by the loop is stuck: re-running the loop on it
yields nothing and leaves it unchanged. -/
theorem processBuffer_residue (jd : JDecoder) :
    ∀ b : List Char,
      processBuffer jd (processBuffer jd b).2 = ([], (processBuffer jd b).2) := by
  have main : ∀ (n : Nat) (b : List Char), b.length = n →
      processBuffer jd (processBuffer jd b).2 = ([], (processBuffer jd b).2) := by
    intro n
    induction n using Nat.strong_induction_on with
    | _ n ih =>
      intro b hn
      cases hsi : substrPos toolStartDelim b with
      | none =>
        rw [processBuffer_none hsi]
        exact processBuffer_none hsi
      | some si =>
        have hsib : si + toolStartDelim.length ≤ b.length := substrPos_bound hsi
        have hz : substrPos toolStartDelim (b.drop si) = some 0 :=
          leadsWith_substrPos_zero (substrPos_drop hsi)
        cases hei : substrPosFrom toolEndDelim (b.drop si) toolStartDelim.length with
        | none =>
          rw [processBuffer_noEnd hsi hei]
          rw [processBuffer_noEnd hz (by simpa using hei)]
          simp
        | some ei =>
          rw [processBuffer_dir hsi hei]
          have hb2 : toolStartDelim.length ≤ ei ∧
              ei + toolEndDelim.length ≤ (b.drop si).length :=
            substrPosFrom_bound (by decide) hei
          simp only [List.length_drop] at hb2
          have hlen : ((b.drop si).drop (ei + toolEndDelim.length)).length < n := by
            subst hn
            simp only [List.length_drop]
            have e1 : toolStartDelim.length = 8 := by decide
            have e2 : toolEndDelim.length = 4 := by decide
            omega
          exact ih _ hlen _ rfl
  intro b
  exact main b.length b rfl

/-! ## The fragment loop of `_parse_stream` (lines 215–238) -/

/-- The final `if buffer: yield TextChunk(buffer)` of `_parse_stream`. -/
def flushBuf (b : List Char) : List RPart :=
  if b.isEmpty then [] else [RPart.text b]

/-- The `async for chunk in raw_adapter_stream` loop: append each fragment
to the buffer, drain the buffer, and at stream end flush any leftover buffer
as a final `TextChunk`. -/
def parseChunksGo (jd : JDecoder) : List Char → List (List Char) → List RPart
  | buffer, [] => flushBuf buffer
  | buffer, c :: cs =>
      (processBuffer jd (buffer ++ c)).1 ++
        parseChunksGo jd (processBuffer jd (buffer ++ c)).2 cs

/-- `LLMService._parse_stream` on a stream of fragments that ends normally:
the full sequence of `LLMResponsePart`s yielded. -/
def parseStream (jd : JDecoder) (chunks : List (List Char)) : List RPart :=
  parseChunksGo jd [] chunks

/-- Processing the whole logical stream as a single fragment. -/
def parseOneShot (jd : JDecoder) (s : List Char) : List RPart :=
  (processBuffer jd s).1 ++ flushBuf (processBuffer jd s).2

theorem parseChunksGo_eq_oneShot (jd : JDecoder) :
    ∀ (cs : List (List Char)) (b : List Char),
      processBuffer jd b = ([], b) →
      parseChunksGo jd b cs = parseOneShot jd (b ++ cs.flatten) := by
  intro cs
  induction cs with
  | nil =>
    intro b hb
    simp [parseChunksGo, parseOneShot, hb, flushBuf]
  | cons c cs ih =>
    intro b hb
    have hres := processBuffer_residue jd (b ++ c)
    have := ih (processBuffer jd (b ++ c)).2 hres
    rw [parseChunksGo, this]
    simp only [parseOneShot]
    rw [show b ++ (c :: cs).flatten = (b ++ c) ++ cs.flatten by simp]
    rw [processBuffer_append jd (b ++ c) cs.flatten]
    simp

theorem processBuffer_nil (jd : JDecoder) : processBuffer jd [] = ([], []) :=
  processBuffer_none (by decide)

/-- The parts produced by `_parse_stream` depend only on the concatenation
of the fragments. -/
theorem parseStream_eq_oneShot (jd : JDecoder) (cs : List (List Char)) :
    parseStream jd cs = parseOneShot jd cs.flatten := by
  have := parseChunksGo_eq_oneShot jd cs [] (processBuffer_nil jd)
  simpa [parseStream] using this

/-! ## Claim C3: chunking invariance -/

/-- C3: for every logical input text and every way of splitting it into a
sequence of fragments, `LLMService._parse_stream` produces the same ordered
sequence of `ResponsePart`s; fragment boundaries (including boundaries that
split a tool directive at any byte offset) do not change the output. -/
theorem parse_stream_chunking_invariant (jd : JDecoder)
    (cs ds : List (List Char)) (h : cs.flatten = ds.flatten) :
    parseStream jd cs = parseStream jd ds := by
  rw [parseStream_eq_oneShot, parseStream_eq_oneShot, h]

/-! ## Directive dispatch lemmas (for claim C4) -/

theorem parseToolDirective_intent_iff (jd : JDecoder) (raw : List Char) :
    (∃ nm args, parseToolDirective jd raw = RPart.toolCallIntent nm args) ↔
    (∃ fields, jd (stripChars raw) = some (JVal.obj fields) ∧
      jHasKey fields jKeyTool = true ∧ jHasKey fields jKeyArguments = true) := by
  constructor
  · rintro ⟨nm, args, h⟩
    unfold parseToolDirective at h
    split at h
    · rename_i fields hf
      split at h
      · rename_i hkeys
        simp only [Bool.and_eq_true] at hkeys
        exact ⟨fields, hf, hkeys.1, hkeys.2⟩
      · cases h
    · cases h
  · rintro ⟨fields, hf, h1, h2⟩
    refine ⟨jGetKey fields jKeyTool, jGetKey fields jKeyArguments, ?_⟩
    simp [parseToolDirective, hf, h1, h2]

theorem parseToolDirective_error (jd : JDecoder) (raw : List Char)
    (h : ¬ ∃ fields, jd (stripChars raw) = some (JVal.obj fields) ∧
      jHasKey fields jKeyTool = true ∧ jHasKey fields jKeyArguments = true) :
    parseToolDirective jd raw = RPart.parseError (stripChars raw) := by
  unfold parseToolDirective
  split
  · rename_i fields hf
    split
    · rename_i hkeys
      simp only [Bool.and_eq_true] at hkeys
      exact absurd ⟨fields, hf, hkeys.1, hkeys.2⟩ h
    · rfl
  · rfl

/-! ## Claim C4: directive extraction and dispatch -/

/-- C4: for a delimited directive region found in the stream (the first
start delimiter at the end of the prose `p1`, the first subsequent end
delimiter right after the interior `d`), the interpreter emits exactly one
part for the directive — a `ToolCallIntent` exactly when the whitespace-
stripped interior decodes to a dict containing both required keys, and one
`ErrorInfo` in every other case — without crashing the stream and without
losing the prose before or after the directive. -/
theorem directive_region_dispatch (jd : JDecoder) (p1 d p2 : List Char)
    (hA : substrPos toolStartDelim
      (p1 ++ toolStartDelim ++ d ++ toolEndDelim ++ p2) = some p1.length)
    (hB : substrPos toolEndDelim (d ++ (toolEndDelim ++ p2)) = some d.length)
    (hC : substrPos toolStartDelim p2 = none)
    (hp1 : p1 ≠ []) (hp2 : p2 ≠ []) :
    parseStream jd [p1 ++ toolStartDelim ++ d ++ toolEndDelim ++ p2] =
      [RPart.text p1, parseToolDirective jd d, RPart.text p2]
    ∧ ((∃ nm args, parseToolDirective jd d = RPart.toolCallIntent nm args) ↔
       (∃ fields, jd (stripChars d) = some (JVal.obj fields) ∧
         jHasKey fields jKeyTool = true ∧ jHasKey fields jKeyArguments = true))
    ∧ ((¬ ∃ fields, jd (stripChars d) = some (JVal.obj fields) ∧
         jHasKey fields jKeyTool = true ∧ jHasKey fields jKeyArguments = true) →
       parseToolDirective jd d = RPart.parseError (stripChars d)) := by
  refine ⟨?_, parseToolDirective_intent_iff jd d, parseToolDirective_error jd d⟩
  set s : List Char := p1 ++ toolStartDelim ++ d ++ toolEndDelim ++ p2 with hs
  have hdrop1 : s.drop p1.length = toolStartDelim ++ (d ++ (toolEndDelim ++ p2)) := by
    rw [hs]
    rw [show p1 ++ toolStartDelim ++ d ++ toolEndDelim ++ p2 =
      p1 ++ (toolStartDelim ++ (d ++ (toolEndDelim ++ p2))) by simp]
    exact List.drop_left p1 _
  have htake1 : s.take p1.length = p1 := by
    rw [hs]
    rw [show p1 ++ toolStartDelim ++ d ++ toolEndDelim ++ p2 =
      p1 ++ (toolStartDelim ++ (d ++ (toolEndDelim ++ p2))) by simp]
    exact List.take_left p1 _
  have hei : substrPosFrom toolEndDelim (s.drop p1.length) toolStartDelim.length =
      some (d.length + toolStartDelim.length) := by
    rw [hdrop1, substrPosFrom, List.drop_left, hB]
    rfl
  have hraw : ((s.drop p1.length).drop toolStartDelim.length).take
      ((d.length + toolStartDelim.length) - toolStartDelim.length) = d := by
    rw [hdrop1, List.drop_left]
    rw [show d.length + toolStartDelim.length - toolStartDelim.length = d.length by omega]
    exact List.take_left d _
  have hrest : (s.drop p1.length).drop
      ((d.length + toolStartDelim.length) + toolEndDelim.length) = p2 := by
    rw [hdrop1]
    rw [show toolStartDelim ++ (d ++ (toolEndDelim ++ p2)) =
      (toolStartDelim ++ d ++ toolEndDelim) ++ p2 by simp]
    refine List.drop_left' ?_
    simp only [List.length_append]
    have e1 : toolStartDelim.length = 8 := by decide
    have e2 : toolEndDelim.length = 4 := by decide
    omega
  have hpb : processBuffer jd s =
      ([RPart.text p1, parseToolDirective jd d], p2) := by
    rw [processBuffer_dir hA hei]
    rw [hraw, hrest, htake1]
    rw [processBuffer_none hC]
    have : 0 < p1.length := List.length_pos.mpr hp1
    simp [this]
  rw [parseStream_eq_oneShot]
  simp only [List.flatten, List.append_nil]
  simp only [parseOneShot, hpb]
  simp [flushBuf, List.isEmpty_iff, hp2]

/-! ## Instrumented buffer loop (ghost data for the no-byte-loss property)

`iProcessBuffer` is the same loop as `processBuffer` but records, for each
directive, the raw interior slice that was consumed instead of its decoded
form, so that the consumed input can be reconstructed.  `iProcessBuffer_proj`
states that projecting the records through the directive decoder recovers
exactly the real output. -/

/-- Instrumented part: prose slice, or the raw interior of a consumed
directive region. -/
inductive IPart where
  | itext (s : List Char)
  | idir (raw : List Char)

/-- Reconstruct the input region an instrumented part was produced from. -/
def renderIPart : IPart → List Char
  | IPart.itext s => s
  | IPart.idir raw => toolStartDelim ++ raw ++ toolEndDelim

/-- Project an instrumented part to the part actually yielded. -/
def projIPart (jd : JDecoder) : IPart → RPart
  | IPart.itext s => RPart.text s
  | IPart.idir raw => parseToolDirective jd raw

def iProcessBuffer (buffer : List Char) : List IPart × List Char :=
  match h : substrPos toolStartDelim buffer with
  | none => ([], buffer)
  | some si =>
    match h2 : substrPosFrom toolEndDelim (buffer.drop si) toolStartDelim.length with
    | none =>
      ((if 0 < si then [IPart.itext (buffer.take si)] else []), buffer.drop si)
    | some ei =>
      ((if 0 < si then [IPart.itext (buffer.take si)] else []) ++
        IPart.idir
          (((buffer.drop si).drop toolStartDelim.length).take (ei - toolStartDelim.length)) ::
        (iProcessBuffer ((buffer.drop si).drop (ei + toolEndDelim.length))).1,
       (iProcessBuffer ((buffer.drop si).drop (ei + toolEndDelim.length))).2)
termination_by buffer.length
decreasing_by
  all_goals
    have hb1 := substrPos_bound h
    have hb2 : toolStartDelim.length ≤ ei ∧
        ei + toolEndDelim.length ≤ (buffer.drop si).length :=
      substrPosFrom_bound (by decide) h2
    have e1 : toolStartDelim.length = 8 := by decide
    have e2 : toolEndDelim.length = 4 := by decide
    simp only [List.length_drop] at hb2 ⊢
    omega

theorem iProcessBuffer_none {b : List Char}
    (h : substrPos toolStartDelim b = none) :
    iProcessBuffer b = ([], b) := by
  unfold iProcessBuffer
  split
  · rfl
  · rename_i si hsi
    rw [h] at hsi
    cases hsi

theorem iProcessBuffer_noEnd {b : List Char} {si : Nat}
    (h : substrPos toolStartDelim b = some si)
    (h2 : substrPosFrom toolEndDelim (b.drop si) toolStartDelim.length = none) :
    iProcessBuffer b =
      ((if 0 < si then [IPart.itext (b.take si)] else []), b.drop si) := by
  unfold iProcessBuffer
  split
  · rename_i hsi
    rw [h] at hsi
    cases hsi
  · rename_i si' hsi
    rw [h] at hsi
    cases hsi
    split
    · rfl
    · rename_i ei hei
      rw [h2] at hei
      cases hei

theorem iProcessBuffer_dir {b : List Char} {si ei : Nat}
    (h : substrPos toolStartDelim b = some si)
    (h2 : substrPosFrom toolEndDelim (b.drop si) toolStartDelim.length = some ei) :
    iProcessBuffer b =
      ((if 0 < si then [IPart.itext (b.take si)] else []) ++
        IPart.idir
          (((b.drop si).drop toolStartDelim.length).take (ei - toolStartDelim.length)) ::
          (iProcessBuffer ((b.drop si).drop (ei + toolEndDelim.length))).1,
       (iProcessBuffer ((b.drop si).drop (ei + toolEndDelim.length))).2) := by
  conv_lhs => rw [iProcessBuffer]
  split
  · rename_i hsi
    rw [h] at hsi
    cases hsi
  · rename_i si' hsi
    rw [h] at hsi
    cases hsi
    split
    · rename_i hei
      rw [h2] at hei
      cases hei
    · rename_i ei' hei
      rw [h2] at hei
      cases hei
      rfl

/-- The real loop is the projection of the instrumented loop. -/
theorem iProcessBuffer_proj (jd : JDecoder) :
    ∀ b : List Char,
      processBuffer jd b =
        ((iProcessBuffer b).1.map (projIPart jd), (iProcessBuffer b).2) := by
  have main : ∀ (n : Nat) (b : List Char), b.length = n →
      processBuffer jd b =
        ((iProcessBuffer b).1.map (projIPart jd), (iProcessBuffer b).2) := by
    intro n
    induction n using Nat.strong_induction_on with
    | _ n ih =>
      intro b hn
      cases hsi : substrPos toolStartDelim b with
      | none =>
        rw [processBuffer_none hsi, iProcessBuffer_none hsi]
        simp
      | some si =>
        cases hei : substrPosFrom toolEndDelim (b.drop si) toolStartDelim.length with
        | none =>
          rw [processBuffer_noEnd hsi hei, iProcessBuffer_noEnd hsi hei]
          by_cases hsi0 : 0 < si <;> simp [hsi0, projIPart]
        | some ei =>
          rw [processBuffer_dir hsi hei, iProcessBuffer_dir hsi hei]
          have hb1 := substrPos_bound hsi
          have hb2 : toolStartDelim.length ≤ ei ∧
              ei + toolEndDelim.length ≤ (b.drop si).length :=
            substrPosFrom_bound (by decide) hei
          simp only [List.length_drop] at hb2
          have hlen : ((b.drop si).drop (ei + toolEndDelim.length)).length < n := by
            subst hn
            simp only [List.length_drop]
            have e1 : toolStartDelim.length = 8 := by decide
            have e2 : toolEndDelim.length = 4 := by decide
            omega
          rw [ih _ hlen _ rfl]
          by_cases hsi0 : 0 < si <;> simp [hsi0, projIPart]
  intro b
  exact main b.length b rfl

/-- No byte of the buffer is dropped: rendering what the loop consumed and
appending the held-over buffer reconstructs the input buffer. -/
theorem iProcessBuffer_render :
    ∀ b : List Char,
      ((iProcessBuffer b).1.map renderIPart).flatten ++ (iProcessBuffer b).2 = b := by
  have main : ∀ (n : Nat) (b : List Char), b.length = n →
      ((iProcessBuffer b).1.map renderIPart).flatten ++ (iProcessBuffer b).2 = b := by
    intro n
    induction n using Nat.strong_induction_on with
    | _ n ih =>
      intro b hn
      cases hsi : substrPos toolStartDelim b with
      | none =>
        rw [iProcessBuffer_none hsi]
        simp
      | some si =>
        have hstart : leadsWith toolStartDelim (b.drop si) = true := substrPos_drop hsi
        have htk : (b.drop si).take toolStartDelim.length = toolStartDelim :=
          leadsWith_eq_take hstart
        cases hei : substrPosFrom toolEndDelim (b.drop si) toolStartDelim.length with
        | none =>
          rw [iProcessBuffer_noEnd hsi hei]
          by_cases hsi0 : 0 < si
          · simp [hsi0, renderIPart, List.take_append_drop]
          · have h0 : si = 0 := by omega
            subst h0
            simp [renderIPart]
        | some ei =>
          rw [iProcessBuffer_dir hsi hei]
          have hb1 := substrPos_bound hsi
          have hb2 : toolStartDelim.length ≤ ei ∧
              ei + toolEndDelim.length ≤ (b.drop si).length :=
            substrPosFrom_bound (by decide) hei
          have heid : substrPos toolEndDelim
              ((b.drop si).drop toolStartDelim.length) =
              some (ei - toolStartDelim.length) := by
            have := hei
            simp only [substrPosFrom, Option.map_eq_some'] at this
            obtain ⟨j, hj, hji⟩ := this
            have : j = ei - toolStartDelim.length := by omega
            rwa [this] at hj
          have hend : leadsWith toolEndDelim ((b.drop si).drop ei) = true := by
            have := substrPos_drop heid
            rw [List.drop_drop] at this
            rwa [show toolStartDelim.length + (ei - toolStartDelim.length) = ei by omega]
              at this
          have hek : ((b.drop si).drop ei).take toolEndDelim.length = toolEndDelim :=
            leadsWith_eq_take hend
          have hlen : ((b.drop si).drop (ei + toolEndDelim.length)).length < n := by
            subst hn
            simp only [List.length_drop] at hb2 ⊢
            have e1 : toolStartDelim.length = 8 := by decide
            have e2 : toolEndDelim.length = 4 := by decide
            omega
          have hihr := ih _ hlen _ rfl
          -- reassemble the dropped buffer from its four slices
          have hu : b.drop si =
              toolStartDelim ++
                (((b.drop si).drop toolStartDelim.length).take (ei - toolStartDelim.length) ++
                  (toolEndDelim ++ (b.drop si).drop (ei + toolEndDelim.length))) := by
            conv_lhs => rw [← List.take_append_drop toolStartDelim.length (b.drop si)]
            rw [htk]
            congr 1
            conv_lhs => rw [← List.take_append_drop (ei - toolStartDelim.length)
              ((b.drop si).drop toolStartDelim.length)]
            congr 1
            rw [List.drop_drop]
            rw [show toolStartDelim.length + (ei - toolStartDelim.length) = ei by omega]
            conv_lhs => rw [← List.take_append_drop toolEndDelim.length ((b.drop si).drop ei)]
            rw [hek]
            congr 1
            rw [List.drop_drop]
          by_cases hsi0 : 0 < si
          · have hb : b = b.take si ++ b.drop si := (List.take_append_drop si b).symm
            simp only [hsi0, if_true, List.map_append, List.map_cons, List.map_nil,
              List.flatten_append, List.flatten_cons, List.flatten_nil, renderIPart,
              List.append_nil, List.nil_append, List.append_assoc]
            rw [hihr]
            conv_rhs => rw [hb, hu]
          · have h0 : si = 0 := by omega
            subst h0
            simp only [List.drop_zero] at hu hihr ⊢
            simp only [Nat.lt_irrefl, if_false, List.nil_append, List.map_cons,
              renderIPart, List.flatten_cons, List.append_assoc]
            rw [hihr]
            conv_rhs => rw [hu]
  intro b
  exact main b.length b rfl

/-- Instrumented fragment loop (no final flush: the leftover buffer is
returned). -/
def iRunChunks : List Char → List (List Char) → List IPart × List Char
  | b, [] => ([], b)
  | b, c :: cs =>
      ((iProcessBuffer (b ++ c)).1 ++ (iRunChunks (iProcessBuffer (b ++ c)).2 cs).1,
       (iRunChunks (iProcessBuffer (b ++ c)).2 cs).2)

theorem iRunChunks_render :
    ∀ (cs : List (List Char)) (b : List Char),
      ((iRunChunks b cs).1.map renderIPart).flatten ++ (iRunChunks b cs).2 =
        b ++ cs.flatten := by
  intro cs
  induction cs with
  | nil => intro b; simp [iRunChunks]
  | cons c cs ih =>
    intro b
    simp only [iRunChunks, List.map_append, List.flatten_append, List.append_assoc]
    rw [ih (iProcessBuffer (b ++ c)).2]
    rw [show ((iProcessBuffer (b ++ c)).1.map renderIPart).flatten ++
        ((iProcessBuffer (b ++ c)).2 ++ cs.flatten) =
        (((iProcessBuffer (b ++ c)).1.map renderIPart).flatten ++
          (iProcessBuffer (b ++ c)).2) ++ cs.flatten by simp]
    rw [iProcessBuffer_render (b ++ c)]
    simp

theorem parseChunksGo_iRun (jd : JDecoder) :
    ∀ (cs : List (List Char)) (b : List Char),
      parseChunksGo jd b cs =
        (iRunChunks b cs).1.map (projIPart jd) ++ flushBuf (iRunChunks b cs).2 := by
  intro cs
  induction cs with
  | nil => intro b; simp [iRunChunks, parseChunksGo]
  | cons c cs ih =>
    intro b
    simp only [parseChunksGo, iRunChunks, List.map_append, List.append_assoc]
    rw [iProcessBuffer_proj jd (b ++ c)]
    rw [ih (iProcessBuffer (b ++ c)).2]

/-! ## Claim C5: buffering, final flush, and no byte loss -/

/-- C5: while consuming fragments, a buffer with no start delimiter is left
untouched by the draining loop (nothing is yielded, the buffer is held);
once the fragment loop has drained, the output of `_parse_stream` is the
projection of the consumed regions followed by a final `TextChunk` flushing
any leftover buffer; and no input byte is dropped — rendering the consumed
regions and appending the leftover buffer reconstructs the whole input. -/
theorem parse_stream_flush_no_loss (jd : JDecoder) (b : List Char)
    (cs : List (List Char)) (hb : substrPos toolStartDelim b = none) :
    processBuffer jd b = ([], b)
    ∧ parseStream jd cs =
        (iRunChunks [] cs).1.map (projIPart jd) ++ flushBuf (iRunChunks [] cs).2
    ∧ ((iRunChunks [] cs).1.map renderIPart).flatten ++ (iRunChunks [] cs).2 =
        cs.flatten := by
  refine ⟨processBuffer_none hb, parseChunksGo_iRun jd cs [], ?_⟩
  have := iRunChunks_render cs []
  simpa using this

/-! ## Concrete sample decoder and witnesses for the parser claims -/

/-- A concrete decoder used by the witnesses: decodes one well-formed
directive body (to a dict with both required keys) and one dict missing the
required keys; everything else fails to decode. -/
def jdSample : JDecoder := fun s =>
  if s = ("\x7b \"tool\": \"calc:add\", \"arguments\": 7 \x7d".toList) then
    some (JVal.obj [(jKeyTool, JVal.str ("calc:add".toList)),
                    (jKeyArguments, JVal.num 7)])
  else if s = ("\x7b \"name\": \"x\" \x7d".toList) then
    some (JVal.obj [(("name".toList), JVal.str ("x".toList))])
  else none

/-- Witness for C3 at a concrete input: a directive split across two
fragments, cut in the middle of the start delimiter, parses identically to
the unsplit stream. -/
theorem parse_stream_chunking_invariant_witness :
    parseStream jdSample
        [("Hi ```to".toList),
         ("ol\n \x7b \"tool\": \"calc:add\", \"arguments\": 7 \x7d \n``` bye".toList)] =
      parseStream jdSample
        [("Hi ```tool\n \x7b \"tool\": \"calc:add\", \"arguments\": 7 \x7d \n``` bye".toList)] :=
  parse_stream_chunking_invariant jdSample _ _ (by decide)

/-- Witness for C4 at a concrete input: a malformed directive (its interior
does not decode) yields exactly one error part between the surrounding
prose parts, and the dispatch dichotomy holds. -/
theorem directive_region_dispatch_witness :
    (parseStream jdSample
        [("ok ".toList) ++ toolStartDelim ++ ("bad".toList) ++ toolEndDelim ++ (" end".toList)] =
      [RPart.text ("ok ".toList), parseToolDirective jdSample ("bad".toList),
       RPart.text (" end".toList)]
    ∧ ((∃ nm args, parseToolDirective jdSample ("bad".toList) =
          RPart.toolCallIntent nm args) ↔
       (∃ fields, jdSample (stripChars ("bad".toList)) = some (JVal.obj fields) ∧
         jHasKey fields jKeyTool = true ∧ jHasKey fields jKeyArguments = true))
    ∧ ((¬ ∃ fields, jdSample (stripChars ("bad".toList)) = some (JVal.obj fields) ∧
         jHasKey fields jKeyTool = true ∧ jHasKey fields jKeyArguments = true) →
       parseToolDirective jdSample ("bad".toList) =
         RPart.parseError (stripChars ("bad".toList))))
    ∧ parseToolDirective jdSample ("bad".toList) = RPart.parseError ("bad".toList) :=
  ⟨directive_region_dispatch jdSample ("ok ".toList) ("bad".toList) (" end".toList)
      (by decide) (by decide) (by decide) (by decide) (by decide),
   by rfl⟩

/-- Witness for C5 at a concrete input. -/
theorem parse_stream_flush_no_loss_witness :
    processBuffer jdSample ("hold".toList) = ([], ("hold".toList))
    ∧ parseStream jdSample [("Hello ".toList), ("world".toList)] =
        (iRunChunks [] [("Hello ".toList), ("world".toList)]).1.map (projIPart jdSample) ++
          flushBuf (iRunChunks [] [("Hello ".toList), ("world".toList)]).2
    ∧ ((iRunChunks [] [("Hello ".toList), ("world".toList)]).1.map renderIPart).flatten ++
        (iRunChunks [] [("Hello ".toList), ("world".toList)]).2 =
        ([("Hello ".toList), ("world".toList)] : List (List Char)).flatten :=
  parse_stream_flush_no_loss jdSample ("hold".toList)
    [("Hello ".toList), ("world".toList)] (by decide)

/-! ## Conversation Orchestrator (`src/core/orchestrator.py`)

The orchestrator is embedded as a trace-producing function.  Its external
collaborators are parameters:
* the model adapter behaviour is a list of model responses, one consumed per
  call of `generate_response`; each response is a list of stream events —
  either a yielded `LLMResponsePart` or an exception raised while iterating
  the stream (once the supplied responses are exhausted, further model calls
  return an empty stream, which ends the turn normally);
* tool execution (`MCPCoordinator.call_tool`) is a function from tool name
  and arguments to either a result or a raised exception.
-/

/-- `ChatMessage.role`. -/
inductive Role where
  | user
  | assistant
  | system
  | tool
deriving DecidableEq

/-- A raised Python exception, reduced to what `_execute_tool_call` reads
from it: `type(e).__name__` and `str(e)`. -/
structure PyErr where
  kind : List Char
  message : List Char

/-- The `data` field of a `ChatMessage`: a tool result, or the structured
error payload built by `_execute_tool_call` (lines 129–133). -/
inductive ToolData where
  | result (v : JVal)
  | errorPayload (error : List Char) (message : List Char)

/-- `ChatMessage` from `llm_service.py` (role, content, data, tool_name). -/
structure ChatMessage where
  role : Role
  content : Option (List Char)
  data : Option ToolData
  tool_name : Option (List Char)

/-- A part yielded by the model response stream as the orchestrator consumes
it.  `other` stands for any value that is none of `TextChunk`,
`ToolCallIntent`, `ErrorInfo` (the defensive `else` branch of
`handle_input`). -/
inductive SPart where
  | textChunk (content : List Char)
  | toolCallIntent (toolName : List Char) (arguments : JVal)
  | errorInfo (message : List Char)
  | other

/-- One event of a model response stream: a yielded part, or an exception
raised while iterating the stream. -/
inductive SEvent where
  | part (p : SPart)
  | raiseEv

/-- A part yielded by `handle_input` to its caller.  `EndOfTurn` is imported
by the orchestrator from `llm_service` but its class definition is absent
from the source snapshot; modelled from the spec: `EndOfTurn` is an empty
terminal part.  The three `ErrorInfo` provenances of `handle_input` are
distinguished: a forwarded stream error, the unknown-part error of the
`else` branch, and the orchestrator-level error of the `except` branch. -/
inductive OutPart where
  | textChunk (content : List Char)
  | toolCallIntent (toolName : List Char) (arguments : JVal)
  | streamError (message : List Char)
  | unknownPartError
  | orchestratorError
  | endOfTurn

/-- A trace event of one `handle_input` run: a call of
`generate_response` with the history snapshot passed to it, a part yielded
to the caller, or a message appended to the session history via
`_add_message`. -/
inductive TraceEv where
  | modelCall (history : List ChatMessage)
  | yieldPart (p : OutPart)
  | append (m : ChatMessage)

/-- `self._max_history_len = 50`. -/
def maxHistoryLen : Nat := 50

/-- The `while len(history) > self._max_history_len: history.pop(0)` loop of
`_add_message`, literally: pop the oldest entry while over the cap. -/
def capHistoryLoop (h : List ChatMessage) : List ChatMessage :=
  if h.length > maxHistoryLen then capHistoryLoop (h.drop 1) else h
termination_by h.length
decreasing_by
  simp only [List.length_drop]
  omega

/-- Closed form of the truncation loop (proved equal to `capHistoryLoop` in
`capHistoryLoop_eq`); used as the working definition so that histories are
computable by the kernel. -/
def capHistory (h : List ChatMessage) : List ChatMessage :=
  h.drop (h.length - maxHistoryLen)

theorem capHistoryLoop_eq : ∀ h : List ChatMessage, capHistoryLoop h = capHistory h := by
  have main : ∀ (n : Nat) (h : List ChatMessage), h.length = n →
      capHistoryLoop h = capHistory h := by
    intro n
    induction n using Nat.strong_induction_on with
    | _ n ih =>
      intro h hn
      unfold capHistoryLoop
      split
      · rename_i hgt
        have hlen : (h.drop 1).length < n := by
          simp only [List.length_drop]
          unfold maxHistoryLen at hgt
          omega
        rw [ih _ hlen _ rfl]
        unfold capHistory
        simp only [List.length_drop, List.drop_drop]
        congr 1
        unfold maxHistoryLen at hgt ⊢
        omega
      · rename_i hle
        unfold capHistory
        have : h.length - maxHistoryLen = 0 := by omega
        rw [this, List.drop_zero]
  intro h
  exact main h.length h rfl

/-- `_add_message`: append, then truncate from the oldest end. -/
def addMessage (h : List ChatMessage) (m : ChatMessage) : List ChatMessage :=
  capHistory (h ++ [m])

/-- The user message built in step 1 of `handle_input`. -/
def userMessage (text : List Char) : ChatMessage :=
  ⟨Role.user, some text, none, none⟩

/-- The assistant message flushing buffered prose. -/
def assistantMessage (s : List Char) : ChatMessage :=
  ⟨Role.assistant, some s, none, none⟩

/-- The behaviour of `MCPCoordinator.call_tool` as seen by
`_execute_tool_call`: either a result or a raised exception. -/
def ToolExec : Type := List Char → JVal → Except PyErr JVal

/-- `_execute_tool_call` (lines 89–135): call the tool; on success record a
`tool`-role message holding the result, on any exception record a
`tool`-role message holding the structured error payload.  It never raises. -/
def executeToolCall (tex : ToolExec) (toolName : List Char) (args : JVal) :
    ChatMessage :=
  match tex toolName args with
  | Except.ok v =>
      ⟨Role.tool, none, some (ToolData.result v), some toolName⟩
  | Except.error e =>
      ⟨Role.tool, none,
       some (ToolData.errorPayload (("Tool execution failed: ".toList) ++ e.kind)
         e.message), some toolName⟩

/-- How the inner `async for part in response_stream` loop ended. -/
inductive InnerExit where
  | toolCall
  | normal
  | errored
deriving DecidableEq

/-- The result of consuming one model response stream. -/
structure InnerResult where
  trace : List TraceEv
  hist : List ChatMessage
  buf : List Char
  exit : InnerExit

/-- The inner `async for part in response_stream` loop of `handle_input`
(lines 177–224): accumulate prose into the assistant buffer and forward it;
on a `ToolCallIntent`, flush the non-empty buffer as one assistant message,
forward the intent, execute the tool, append exactly one `tool` message and
break; forward `ErrorInfo`s and continue; convert parts of unknown shape
into `ErrorInfo`s and continue; a raised exception is caught by the `except`
branch (line 248), which yields one orchestrator `ErrorInfo` and breaks the
outer loop. -/
def processParts (tex : ToolExec) :
    List SEvent → List ChatMessage → List Char → InnerResult
  | [], hist, buf => ⟨[], hist, buf, InnerExit.normal⟩
  | SEvent.raiseEv :: _, hist, buf =>
      ⟨[TraceEv.yieldPart OutPart.orchestratorError], hist, buf, InnerExit.errored⟩
  | SEvent.part p :: rest, hist, buf =>
      match p with
      | SPart.textChunk s =>
          let r := processParts tex rest hist (buf ++ s)
          ⟨TraceEv.yieldPart (OutPart.textChunk s) :: r.trace, r.hist, r.buf, r.exit⟩
      | SPart.toolCallIntent nm args =>
          let flushEvs : List TraceEv :=
            if buf ≠ [] then [TraceEv.append (assistantMessage buf)] else []
          let hist1 := if buf ≠ [] then addMessage hist (assistantMessage buf) else hist
          let tmsg := executeToolCall tex nm args
          ⟨flushEvs ++
             [TraceEv.yieldPart (OutPart.toolCallIntent nm args), TraceEv.append tmsg],
           addMessage hist1 tmsg, [], InnerExit.toolCall⟩
      | SPart.errorInfo msg =>
          let r := processParts tex rest hist buf
          ⟨TraceEv.yieldPart (OutPart.streamError msg) :: r.trace, r.hist, r.buf, r.exit⟩
      | SPart.other =>
          let r := processParts tex rest hist buf
          ⟨TraceEv.yieldPart OutPart.unknownPartError :: r.trace, r.hist, r.buf, r.exit⟩

/-- The outer `while True` loop of `handle_input` (lines 160–254): call the
model (recording the history snapshot), consume the stream; after a tool
call, loop again; on normal stream end, flush any remaining buffered prose
as a final assistant message and stop; after a caught exception, stop.  When
the supplied responses are exhausted the model stream is empty, which ends
the turn normally. -/
def turnLoop (tex : ToolExec) :
    List (List SEvent) → List ChatMessage → List TraceEv × List ChatMessage
  | [], hist => ([TraceEv.modelCall hist], hist)
  | resp :: rest, hist =>
      let r := processParts tex resp hist []
      match r.exit with
      | InnerExit.toolCall =>
          let cont := turnLoop tex rest r.hist
          (TraceEv.modelCall hist :: r.trace ++ cont.1, cont.2)
      | InnerExit.normal =>
          if r.buf ≠ [] then
            (TraceEv.modelCall hist :: r.trace ++
               [TraceEv.append (assistantMessage r.buf)],
             addMessage r.hist (assistantMessage r.buf))
          else
            (TraceEv.modelCall hist :: r.trace, r.hist)
      | InnerExit.errored =>
          (TraceEv.modelCall hist :: r.trace, r.hist)

/-- `handle_input` (lines 138–260): append the user message, run the turn
loop, and always yield exactly one `EndOfTurn` at the very end (line 259,
outside the loop and outside the `try`). -/
def handleInput (tex : ToolExec) (responses : List (List SEvent))
    (hist0 : List ChatMessage) (text : List Char) :
    List TraceEv × List ChatMessage :=
  let hist1 := addMessage hist0 (userMessage text)
  let r := turnLoop tex responses hist1
  (TraceEv.append (userMessage text) :: r.1 ++ [TraceEv.yieldPart OutPart.endOfTurn],
   r.2)

/-- The parts yielded to the caller, in order. -/
def traceOutputs (tr : List TraceEv) : List OutPart :=
  tr.filterMap (fun e => match e with
    | TraceEv.yieldPart p => some p
    | _ => none)

/-- Recognizer for the terminal part. -/
def isEndOfTurn : OutPart → Bool
  | OutPart.endOfTurn => true
  | _ => false

theorem processParts_no_end (tex : ToolExec) :
    ∀ (evs : List SEvent) (hist : List ChatMessage) (buf : List Char),
      (traceOutputs (processParts tex evs hist buf).trace).countP isEndOfTurn = 0 := by
  intro evs
  induction evs with
  | nil => intro hist buf; simp [processParts, traceOutputs]
  | cons e rest ih =>
    intro hist buf
    cases e with
    | raiseEv =>
      simp [processParts, traceOutputs, isEndOfTurn]
    | part p =>
      cases p with
      | textChunk s =>
        simp only [processParts, traceOutputs, List.filterMap_cons]
        simpa [isEndOfTurn, traceOutputs] using ih hist (buf ++ s)
      | toolCallIntent nm args =>
        by_cases hb : buf ≠ [] <;>
          simp [processParts, traceOutputs, isEndOfTurn, hb]
      | errorInfo msg =>
        simp only [processParts, traceOutputs, List.filterMap_cons]
        simpa [isEndOfTurn, traceOutputs] using ih hist buf
      | other =>
        simp only [processParts, traceOutputs, List.filterMap_cons]
        simpa [isEndOfTurn, traceOutputs] using ih hist buf

theorem turnLoop_no_end (tex : ToolExec) :
    ∀ (responses : List (List SEvent)) (hist : List ChatMessage),
      (traceOutputs (turnLoop tex responses hist).1).countP isEndOfTurn = 0 := by
  intro responses
  induction responses with
  | nil => intro hist; simp [turnLoop, traceOutputs]
  | cons resp rest ih =>
    intro hist
    have hpp := processParts_no_end tex resp hist []
    simp only [turnLoop]
    split
    · simp only [traceOutputs, List.filterMap_cons, List.filterMap_append]
      simp only [traceOutputs] at hpp ih
      simp [List.countP_append, hpp, ih]
    · split
      · simp only [traceOutputs, List.filterMap_cons, List.filterMap_append]
        simp only [traceOutputs] at hpp
        simp [List.countP_append, hpp, isEndOfTurn]
      · simp only [traceOutputs, List.filterMap_cons]
        simp only [traceOutputs] at hpp
        simpa using hpp
    · simp only [traceOutputs, List.filterMap_cons]
      simp only [traceOutputs] at hpp
      simpa using hpp

/-! ## Claim C1: exactly one terminal `EndOfTurn`, always last -/

/-- C1: for every session history, input text, and every behaviour of the
model adapter (any finite sequence of responses, each a mix of text chunks,
tool-call intents, stream errors, unrecognized parts and raised exceptions)
and of the tool providers (results or raised exceptions), the sequence of
parts yielded by `handle_input` contains exactly one `EndOfTurn`, and it is
the last part yielded. -/
theorem handle_input_single_end_of_turn (tex : ToolExec)
    (responses : List (List SEvent)) (hist0 : List ChatMessage)
    (text : List Char) :
    (traceOutputs (handleInput tex responses hist0 text).1).countP isEndOfTurn = 1
    ∧ (traceOutputs (handleInput tex responses hist0 text).1).getLast? =
        some OutPart.endOfTurn := by
  have h := turnLoop_no_end tex responses (addMessage hist0 (userMessage text))
  simp only [handleInput, traceOutputs, List.filterMap_cons, List.filterMap_append]
  simp only [traceOutputs] at h
  constructor
  · simp [List.countP_append, h, isEndOfTurn]
  · simp

/-! ## Supporting lemmas for the tool-call invariant (claim C2) -/

/-- Concatenation of all prose forwarded in a trace segment. -/
def textConcat (tr : List TraceEv) : List Char :=
  (tr.filterMap (fun e => match e with
    | TraceEv.yieldPart (OutPart.textChunk s) => some s
    | _ => none)).flatten

theorem textConcat_nil : textConcat [] = [] := rfl

theorem textConcat_cons_text (s : List Char) (tr : List TraceEv) :
    textConcat (TraceEv.yieldPart (OutPart.textChunk s) :: tr) = s ++ textConcat tr := by
  simp [textConcat]

theorem textConcat_cons_other (e : TraceEv) (tr : List TraceEv)
    (he : ∀ s, e ≠ TraceEv.yieldPart (OutPart.textChunk s)) :
    textConcat (e :: tr) = textConcat tr := by
  cases e with
  | yieldPart p =>
    cases p with
    | textChunk s => exact absurd rfl (he s)
    | toolCallIntent nm args => simp [textConcat]
    | streamError m => simp [textConcat]
    | unknownPartError => simp [textConcat]
    | orchestratorError => simp [textConcat]
    | endOfTurn => simp [textConcat]
  | modelCall h => simp [textConcat]
  | append m => simp [textConcat]

/-- An element occurring in the concatenation of two lists lies in one part,
split around it. -/
theorem append_eq_append_cons_split {α : Type} (u v pre : List α) (x : α)
    (post : List α) (h : u ++ v = pre ++ x :: post) :
    (∃ post1, u = pre ++ x :: post1 ∧ post = post1 ++ v) ∨
    (∃ pre2, pre = u ++ pre2 ∧ v = pre2 ++ x :: post) := by
  induction u generalizing pre with
  | nil =>
    right
    exact ⟨pre, rfl, h⟩
  | cons a u ih =>
    cases pre with
    | nil =>
      left
      simp only [List.nil_append] at h ⊢
      cases h
      exact ⟨u, rfl, rfl⟩
    | cons b pre =>
      simp only [List.cons_append, List.cons.injEq] at h
      obtain ⟨rfl, h2⟩ := h
      rcases ih pre h2 with ⟨post1, h3, h4⟩ | ⟨pre2, h3, h4⟩
      · exact Or.inl ⟨post1, by rw [h3]; rfl, h4⟩
      · exact Or.inr ⟨pre2, by rw [h3]; rfl, h4⟩

theorem getLast?_cons_of_some {α : Type} {l : List α} {a y : α}
    (h : l.getLast? = some y) : (a :: l).getLast? = some y := by
  cases l with
  | nil => simp at h
  | cons b l => rwa [List.getLast?_cons_cons]

/-- `processParts` never records a model call. -/
theorem processParts_no_modelCall (tex : ToolExec) :
    ∀ (evs : List SEvent) (hist : List ChatMessage) (buf : List Char)
      (hh : List ChatMessage),
      TraceEv.modelCall hh ∉ (processParts tex evs hist buf).trace := by
  intro evs
  induction evs with
  | nil => intro hist buf hh; simp [processParts]
  | cons e rest ih =>
    intro hist buf hh
    cases e with
    | raiseEv => simp [processParts]
    | part p =>
      cases p with
      | textChunk s =>
        simp only [processParts, List.mem_cons]
        push_neg
        exact ⟨by simp, ih hist (buf ++ s) hh⟩
      | toolCallIntent nm args =>
        by_cases hb : buf ≠ [] <;> simp [processParts, hb]
      | errorInfo msg =>
        simp only [processParts, List.mem_cons]
        push_neg
        exact ⟨by simp, ih hist buf hh⟩
      | other =>
        simp only [processParts, List.mem_cons]
        push_neg
        exact ⟨by simp, ih hist buf hh⟩

/-- Structure of one stream consumption around a forwarded
`ToolCallIntent`: the buffered prose (if any) was flushed as one assistant
message immediately before the intent, the tool-result message follows
immediately after it, and the inner loop breaks (so nothing else follows). -/
theorem processParts_intent (tex : ToolExec) :
    ∀ (evs : List SEvent) (hist : List ChatMessage) (buf : List Char)
      (pre : List TraceEv) (nm : List Char) (args : JVal) (post : List TraceEv),
      (processParts tex evs hist buf).trace =
        pre ++ TraceEv.yieldPart (OutPart.toolCallIntent nm args) :: post →
      post = [TraceEv.append (executeToolCall tex nm args)]
      ∧ (processParts tex evs hist buf).exit = InnerExit.toolCall
      ∧ (buf ++ textConcat pre ≠ [] →
           pre.getLast? =
             some (TraceEv.append (assistantMessage (buf ++ textConcat pre))))
      ∧ (buf ++ textConcat pre = [] → ∀ m, TraceEv.append m ∉ pre) := by
  intro evs
  induction evs with
  | nil =>
    intro hist buf pre nm args post h
    simp only [processParts] at h
    exact absurd h.symm (by simp)
  | cons e rest ih =>
    intro hist buf pre nm args post h
    cases e with
    | raiseEv =>
      simp only [processParts] at h
      rcases pre with _ | ⟨e1, pre⟩
      · simp at h
      · simp only [List.cons_append, List.cons.injEq] at h
        exact absurd h.2.symm (by simp)
    | part p =>
      cases p with
      | textChunk s =>
        simp only [processParts] at h
        rcases pre with _ | ⟨e1, pre⟩
        · simp at h
        · simp only [List.cons_append, List.cons.injEq] at h
          obtain ⟨he1, h2⟩ := h
          obtain ⟨hpost, hexit, hfl, hz⟩ := ih hist (buf ++ s) pre nm args post h2
          subst he1
          refine ⟨hpost, hexit, ?_, ?_⟩
          · intro hne
            rw [textConcat_cons_text] at hne ⊢
            rw [← List.append_assoc] at hne ⊢
            exact getLast?_cons_of_some (hfl hne)
          · intro hzz m hm
            rw [textConcat_cons_text, ← List.append_assoc] at hzz
            rcases List.mem_cons.mp hm with heq | hm2
            · cases heq
            · exact hz hzz m hm2
      | errorInfo msg =>
        simp only [processParts] at h
        rcases pre with _ | ⟨e1, pre⟩
        · simp at h
        · simp only [List.cons_append, List.cons.injEq] at h
          obtain ⟨he1, h2⟩ := h
          obtain ⟨hpost, hexit, hfl, hz⟩ := ih hist buf pre nm args post h2
          subst he1
          have htc : textConcat
              (TraceEv.yieldPart (OutPart.streamError msg) :: pre) = textConcat pre :=
            textConcat_cons_other _ _ (by intro s hcon; cases hcon)
          refine ⟨hpost, hexit, ?_, ?_⟩
          · intro hne
            rw [htc] at hne ⊢
            exact getLast?_cons_of_some (hfl hne)
          · intro hzz m hm
            rw [htc] at hzz
            rcases List.mem_cons.mp hm with heq | hm2
            · cases heq
            · exact hz hzz m hm2
      | other =>
        simp only [processParts] at h
        rcases pre with _ | ⟨e1, pre⟩
        · simp at h
        · simp only [List.cons_append, List.cons.injEq] at h
          obtain ⟨he1, h2⟩ := h
          obtain ⟨hpost, hexit, hfl, hz⟩ := ih hist buf pre nm args post h2
          subst he1
          have htc : textConcat
              (TraceEv.yieldPart OutPart.unknownPartError :: pre) = textConcat pre :=
            textConcat_cons_other _ _ (by intro s hcon; cases hcon)
          refine ⟨hpost, hexit, ?_, ?_⟩
          · intro hne
            rw [htc] at hne ⊢
            exact getLast?_cons_of_some (hfl hne)
          · intro hzz m hm
            rw [htc] at hzz
            rcases List.mem_cons.mp hm with heq | hm2
            · cases heq
            · exact hz hzz m hm2
      | toolCallIntent nm2 args2 =>
        by_cases hb : buf ≠ []
        · simp only [processParts] at h
          rw [if_pos hb] at h
          simp only [List.cons_append, List.nil_append] at h
          rcases pre with _ | ⟨e1, _ | ⟨e2, _ | ⟨e3, pre⟩⟩⟩
          · exfalso
            simp at h
          · simp only [List.cons_append, List.nil_append, List.cons.injEq] at h
            obtain ⟨he1, hi, hpost⟩ := h
            obtain ⟨hnm, hargs⟩ : nm2 = nm ∧ args2 = args := by simpa using hi
            subst hnm
            subst hargs
            subst he1
            refine ⟨hpost.symm, by simp [processParts, hb], ?_, ?_⟩
            · intro _
              have htc : textConcat [TraceEv.append (assistantMessage buf)] = [] := rfl
              rw [htc, List.append_nil]
              rfl
            · intro hzz
              have htc : textConcat [TraceEv.append (assistantMessage buf)] = [] := rfl
              rw [htc, List.append_nil] at hzz
              exact absurd hzz hb
          · exfalso
            simp at h
          · exfalso
            simp at h
        · simp only [processParts] at h
          rw [if_neg hb] at h
          have hbuf : buf = [] := by
            by_contra hc
            exact hb hc
          rcases pre with _ | ⟨e1, _ | ⟨e2, pre⟩⟩
          · simp only [List.append_eq, List.nil_append, List.cons.injEq] at h
            obtain ⟨hi, hpost⟩ := h
            obtain ⟨hnm, hargs⟩ : nm2 = nm ∧ args2 = args := by simpa using hi
            subst hnm
            subst hargs
            refine ⟨hpost.symm, by simp [processParts, hb], ?_, ?_⟩
            · intro hne
              exact absurd (by rw [hbuf]; rfl) hne
            · intro _ m hm
              simp at hm
          · exfalso
            simp at h
          · exfalso
            simp at h

/-- Every model call of the turn loop is the first event of its iteration's
trace. -/
theorem turnLoop_head (tex : ToolExec) (responses : List (List SEvent))
    (hist : List ChatMessage) :
    (turnLoop tex responses hist).1.head? = some (TraceEv.modelCall hist) := by
  cases responses with
  | nil => rfl
  | cons r rest =>
    simp only [turnLoop]
    split <;> (try split) <;> simp

/-- Structure of the turn-loop trace around a forwarded `ToolCallIntent`:
the tool-result append follows it immediately, the next event after that is
the next model call, and between the preceding model call and the intent
the only append is the single assistant flush of the accumulated prose. -/
theorem turnLoop_intent (tex : ToolExec) :
    ∀ (responses : List (List SEvent)) (hist : List ChatMessage)
      (pre : List TraceEv) (nm : List Char) (args : JVal) (post : List TraceEv),
      (turnLoop tex responses hist).1 =
        pre ++ TraceEv.yieldPart (OutPart.toolCallIntent nm args) :: post →
      (∃ post2, post = TraceEv.append (executeToolCall tex nm args) :: post2
         ∧ ∃ h3, post2.head? = some (TraceEv.modelCall h3))
      ∧ (∃ h1 pre1 pre2,
          pre = pre1 ++ TraceEv.modelCall h1 :: pre2
          ∧ (∀ h2, TraceEv.modelCall h2 ∉ pre2)
          ∧ (textConcat pre2 ≠ [] →
               pre2.getLast? =
                 some (TraceEv.append (assistantMessage (textConcat pre2))))
          ∧ (textConcat pre2 = [] → ∀ m, TraceEv.append m ∉ pre2)) := by
  intro responses
  induction responses with
  | nil =>
    intro hist pre nm args post h
    exfalso
    rcases pre with _ | ⟨e1, pre⟩ <;> simp [turnLoop] at h
  | cons resp rest ih =>
    intro hist pre nm args post h
    cases hex : (processParts tex resp hist []).exit with
    | toolCall =>
      simp only [turnLoop, hex] at h
      rcases pre with _ | ⟨e1, pre⟩
      · exfalso
        simp at h
      · simp only [List.cons_append, List.cons.injEq] at h
        obtain ⟨he1, h2⟩ := h
        rcases append_eq_append_cons_split _ _ _ _ _ h2 with
          ⟨post1, hsplit, hpost⟩ | ⟨pre2, hsplit, hcont⟩
        · obtain ⟨hpost1, _, hfl, hz⟩ :=
            processParts_intent tex resp hist [] pre nm args post1 hsplit
          constructor
          · refine ⟨(turnLoop tex rest (processParts tex resp hist []).hist).1, ?_,
              (processParts tex resp hist []).hist, turnLoop_head tex rest _⟩
            rw [hpost, hpost1]
            rfl
          · refine ⟨hist, [], pre, by rw [← he1]; rfl, ?_, ?_, ?_⟩
            · intro h2m hm
              have : TraceEv.modelCall h2m ∈ (processParts tex resp hist []).trace := by
                rw [hsplit]
                exact List.mem_append_left _ hm
              exact processParts_no_modelCall tex resp hist [] h2m this
            · intro hne
              have := hfl (by simpa using hne)
              simpa using this
            · intro hzz m hm
              exact hz (by simpa using hzz) m hm
        · obtain ⟨hc1, h1, pre1, pre2b, hdecomp, hnomc, hfl, hz⟩ :=
            ih (processParts tex resp hist []).hist pre2 nm args post hcont
          refine ⟨hc1, h1, e1 :: ((processParts tex resp hist []).trace ++ pre1),
            pre2b, ?_, hnomc, hfl, hz⟩
          rw [hsplit, hdecomp]
          simp
    | normal =>
      exfalso
      simp only [turnLoop, hex] at h
      by_cases hbuf : (processParts tex resp hist []).buf ≠ []
      · rw [if_pos hbuf] at h
        rcases pre with _ | ⟨e1, pre⟩
        · simp at h
        · simp only [List.cons_append, List.cons.injEq] at h
          obtain ⟨he1, h2⟩ := h
          rcases append_eq_append_cons_split _ _ _ _ _ h2 with
            ⟨post1, hsplit, hpost⟩ | ⟨pre2, hsplit, hcont⟩
          · have := (processParts_intent tex resp hist [] pre nm args post1 hsplit).2.1
            rw [hex] at this
            cases this
          · rcases pre2 with _ | ⟨f1, pre2⟩
            · simp at hcont
            · simp only [List.cons_append, List.cons.injEq] at hcont
              exact absurd hcont.2.symm (by simp)
      · rw [if_neg hbuf] at h
        rcases pre with _ | ⟨e1, pre⟩
        · simp at h
        · simp only [List.cons_append, List.cons.injEq] at h
          have := (processParts_intent tex resp hist [] pre nm args post h.2).2.1
          rw [hex] at this
          cases this
    | errored =>
      exfalso
      simp only [turnLoop, hex] at h
      rcases pre with _ | ⟨e1, pre⟩
      · simp at h
      · simp only [List.cons_append, List.cons.injEq] at h
        have := (processParts_intent tex resp hist [] pre nm args post h.2).2.1
        rw [hex] at this
        cases this

/-- What `_execute_tool_call` records: a `tool`-role message for the called
tool, holding the result on success and the structured error payload (kind
and message) when tool execution raises. -/
theorem executeToolCall_spec (tex : ToolExec) (nm : List Char) (args : JVal) :
    (executeToolCall tex nm args).role = Role.tool
    ∧ (executeToolCall tex nm args).tool_name = some nm
    ∧ ((∃ v, tex nm args = Except.ok v ∧
          (executeToolCall tex nm args).data = some (ToolData.result v))
       ∨ (∃ e, tex nm args = Except.error e ∧
          (executeToolCall tex nm args).data =
            some (ToolData.errorPayload (("Tool execution failed: ".toList) ++ e.kind)
              e.message))) := by
  unfold executeToolCall
  cases htex : tex nm args with
  | ok v =>
    refine ⟨rfl, rfl, Or.inl ⟨v, rfl, rfl⟩⟩
  | error e =>
    refine ⟨rfl, rfl, Or.inr ⟨e, rfl, rfl⟩⟩

theorem processParts_assistant_nonempty (tex : ToolExec) :
    ∀ (evs : List SEvent) (hist : List ChatMessage) (buf : List Char)
      (m : ChatMessage),
      TraceEv.append m ∈ (processParts tex evs hist buf).trace →
      m.role = Role.assistant → ∃ s, m.content = some s ∧ s ≠ [] := by
  intro evs
  induction evs with
  | nil => intro hist buf m hm; simp [processParts] at hm
  | cons e rest ih =>
    intro hist buf m hm hrole
    cases e with
    | raiseEv => simp [processParts] at hm
    | part p =>
      cases p with
      | textChunk s =>
        simp only [processParts, List.mem_cons] at hm
        rcases hm with heq | hm2
        · cases heq
        · exact ih hist (buf ++ s) m hm2 hrole
      | toolCallIntent nm args =>
        by_cases hb : buf ≠ []
        · simp only [processParts] at hm
          rw [if_pos hb] at hm
          simp only [List.cons_append, List.nil_append, List.mem_cons,
            List.not_mem_nil] at hm
          rcases hm with heq | heq | heq | hf
          · cases heq
            exact ⟨buf, rfl, hb⟩
          · cases heq
          · exfalso
            cases heq
            have := (executeToolCall_spec tex nm args).1
            rw [hrole] at this
            cases this
          · exact absurd hf (by simp)
        · simp only [processParts] at hm
          rw [if_neg hb] at hm
          simp only [List.nil_append, List.mem_cons, List.not_mem_nil] at hm
          rcases hm with heq | heq | hf
          · cases heq
          · exfalso
            cases heq
            have := (executeToolCall_spec tex nm args).1
            rw [hrole] at this
            cases this
          · exact absurd hf (by simp)
      | errorInfo msg =>
        simp only [processParts, List.mem_cons] at hm
        rcases hm with heq | hm2
        · cases heq
        · exact ih hist buf m hm2 hrole
      | other =>
        simp only [processParts, List.mem_cons] at hm
        rcases hm with heq | hm2
        · cases heq
        · exact ih hist buf m hm2 hrole

theorem turnLoop_assistant_nonempty (tex : ToolExec) :
    ∀ (responses : List (List SEvent)) (hist : List ChatMessage)
      (m : ChatMessage),
      TraceEv.append m ∈ (turnLoop tex responses hist).1 →
      m.role = Role.assistant → ∃ s, m.content = some s ∧ s ≠ [] := by
  intro responses
  induction responses with
  | nil => intro hist m hm; simp [turnLoop] at hm
  | cons resp rest ih =>
    intro hist m hm hrole
    have hpp := processParts_assistant_nonempty tex resp hist []
    cases hex : (processParts tex resp hist []).exit with
    | toolCall =>
      simp only [turnLoop, hex] at hm
      rcases List.mem_cons.mp hm with heq | hm2
      · cases heq
      · rcases List.mem_append.mp hm2 with hin | hrec
        · exact hpp m hin hrole
        · exact ih _ m hrec hrole
    | normal =>
      simp only [turnLoop, hex] at hm
      by_cases hbuf : (processParts tex resp hist []).buf ≠ []
      · rw [if_pos hbuf] at hm
        rcases List.mem_cons.mp hm with heq | hm2
        · cases heq
        · rcases List.mem_append.mp hm2 with hin | hlast
          · exact hpp m hin hrole
          · have heq2 := List.mem_singleton.mp hlast
            cases heq2
            exact ⟨(processParts tex resp hist []).buf, rfl, hbuf⟩
      · rw [if_neg hbuf] at hm
        rcases List.mem_cons.mp hm with heq | hin
        · cases heq
        · exact hpp m hin hrole
    | errored =>
      simp only [turnLoop, hex] at hm
      rcases List.mem_cons.mp hm with heq | hin
      · cases heq
      · exact hpp m hin hrole

theorem head?_append_of_some {α : Type} {l : List α} {y : α} (l2 : List α)
    (h : l.head? = some y) : (l ++ l2).head? = some y := by
  cases l with
  | nil => simp at h
  | cons a l => simpa using h

/-! ## Claim C2: the tool-call invariant of `handle_input` -/

/-- C2: whenever `handle_input` yields a `ToolCallIntent`, at that moment
the history already received (as a single assistant `ChatMessage`, appended
immediately before the intent) exactly the prose the model produced since
the model call that opened this response — and no assistant message at all
was recorded in this response when there was no prose; immediately after
the intent, and before the next model call (which is the very next trace
event after it), exactly one `tool`-role `ChatMessage` is appended for that
intent, carrying the tool result or the structured error payload (kind and
message) when tool execution raises.  Moreover no empty assistant message
is ever recorded. -/
theorem handle_input_intent_invariant (tex : ToolExec)
    (responses : List (List SEvent)) (hist0 : List ChatMessage)
    (text : List Char) (pre : List TraceEv) (nm : List Char) (args : JVal)
    (post : List TraceEv)
    (h : (handleInput tex responses hist0 text).1 =
      pre ++ TraceEv.yieldPart (OutPart.toolCallIntent nm args) :: post) :
    (∃ post2, post = TraceEv.append (executeToolCall tex nm args) :: post2
       ∧ ∃ h3, post2.head? = some (TraceEv.modelCall h3))
    ∧ (executeToolCall tex nm args).role = Role.tool
    ∧ (executeToolCall tex nm args).tool_name = some nm
    ∧ ((∃ v, tex nm args = Except.ok v ∧
          (executeToolCall tex nm args).data = some (ToolData.result v))
       ∨ (∃ e, tex nm args = Except.error e ∧
          (executeToolCall tex nm args).data =
            some (ToolData.errorPayload
              (("Tool execution failed: ".toList) ++ e.kind) e.message)))
    ∧ (∃ h1 pre1 pre2,
        pre = pre1 ++ TraceEv.modelCall h1 :: pre2
        ∧ (∀ h2, TraceEv.modelCall h2 ∉ pre2)
        ∧ (textConcat pre2 ≠ [] →
             pre2.getLast? =
               some (TraceEv.append (assistantMessage (textConcat pre2))))
        ∧ (textConcat pre2 = [] → ∀ m, TraceEv.append m ∉ pre2))
    ∧ (∀ m, TraceEv.append m ∈ (handleInput tex responses hist0 text).1 →
        m.role = Role.assistant → ∃ s, m.content = some s ∧ s ≠ []) := by
  obtain ⟨hrole, htn, hdata⟩ := executeToolCall_spec tex nm args
  have hassist : ∀ m, TraceEv.append m ∈ (handleInput tex responses hist0 text).1 →
      m.role = Role.assistant → ∃ s, m.content = some s ∧ s ≠ [] := by
    intro m hm hr
    simp only [handleInput] at hm
    rcases List.mem_cons.mp hm with heq | hm2
    · cases heq
      simp [userMessage] at hr
    · rcases List.mem_append.mp hm2 with hin | hlast
      · exact turnLoop_assistant_nonempty tex responses _ m hin hr
      · have := List.mem_singleton.mp hlast
        cases this
  simp only [handleInput] at h
  rcases pre with _ | ⟨e1, pre⟩
  · exfalso
    simp at h
  · simp only [List.cons_append, List.cons.injEq] at h
    obtain ⟨he1, h2⟩ := h
    rcases append_eq_append_cons_split _ _ _ _ _ h2 with
      ⟨post1, hsplit, hpost⟩ | ⟨pre2, hsplit, hcont⟩
    · obtain ⟨⟨post2, hp2, h3, hh3⟩, hpredec⟩ :=
        turnLoop_intent tex responses _ pre nm args post1 hsplit
      refine ⟨⟨post2 ++ [TraceEv.yieldPart OutPart.endOfTurn], ?_,
          h3, head?_append_of_some _ hh3⟩, hrole, htn, hdata, ?_, hassist⟩
      · rw [hpost, hp2]
        rfl
      · obtain ⟨h1, pre1, pre2, hdecomp, hnomc, hfl, hz⟩ := hpredec
        exact ⟨h1, e1 :: pre1, pre2, by rw [hdecomp]; rfl, hnomc, hfl, hz⟩
    · exfalso
      rcases pre2 with _ | ⟨f1, pre2⟩
      · simp at hcont
      · simp only [List.cons_append, List.cons.injEq] at hcont
        exact absurd hcont.2.symm (by simp)

/-- A concrete tool behaviour for the witness: every call returns 4. -/
def texW : ToolExec := fun _ _ => Except.ok (JVal.num 4)

/-- A concrete adapter behaviour for the witness: prose then a tool call,
then (after the re-prompt) a final prose answer. -/
def respW : List (List SEvent) :=
  [[SEvent.part (SPart.textChunk ("Let me compute ".toList)),
    SEvent.part (SPart.toolCallIntent ("calc:add".toList) (JVal.num 2))],
   [SEvent.part (SPart.textChunk ("4".toList))]]

/-- Witness for C2 at a concrete run: in the trace of `handleInput` on
`respW`, the forwarded intent is followed immediately by the tool-result
append and then by the next model call. -/
theorem handle_input_intent_invariant_witness :
    ∃ post2,
      [TraceEv.append (executeToolCall texW ("calc:add".toList) (JVal.num 2)),
       TraceEv.modelCall
         [userMessage ("What is 2+2".toList),
          assistantMessage ("Let me compute ".toList),
          executeToolCall texW ("calc:add".toList) (JVal.num 2)],
       TraceEv.yieldPart (OutPart.textChunk ("4".toList)),
       TraceEv.append (assistantMessage ("4".toList)),
       TraceEv.yieldPart OutPart.endOfTurn] =
        TraceEv.append (executeToolCall texW ("calc:add".toList) (JVal.num 2)) :: post2
      ∧ ∃ h3, post2.head? = some (TraceEv.modelCall h3) :=
  (handle_input_intent_invariant texW respW [] ("What is 2+2".toList)
    [TraceEv.append (userMessage ("What is 2+2".toList)),
     TraceEv.modelCall [userMessage ("What is 2+2".toList)],
     TraceEv.yieldPart (OutPart.textChunk ("Let me compute ".toList)),
     TraceEv.append (assistantMessage ("Let me compute ".toList))]
    ("calc:add".toList) (JVal.num 2)
    [TraceEv.append (executeToolCall texW ("calc:add".toList) (JVal.num 2)),
     TraceEv.modelCall
       [userMessage ("What is 2+2".toList),
        assistantMessage ("Let me compute ".toList),
        executeToolCall texW ("calc:add".toList) (JVal.num 2)],
     TraceEv.yieldPart (OutPart.textChunk ("4".toList)),
     TraceEv.append (assistantMessage ("4".toList)),
     TraceEv.yieldPart OutPart.endOfTurn]
    (by rfl)).1

/-! ## Claim C6: the history cap of `_add_message` -/

/-- C6: the truncation loop of `_add_message` (pop the oldest entry while
over the cap) keeps exactly the newest `MAX_HISTORY` entries: for every
sequence of appended messages, the resulting history never exceeds the cap,
equals the suffix of the appended sequence obtained by removing the oldest
entries first, and in particular never reorders the remaining messages. -/
theorem history_cap_invariant (ms : List ChatMessage) :
    (∀ h : List ChatMessage, capHistoryLoop h = h.drop (h.length - maxHistoryLen))
    ∧ (ms.foldl addMessage []).length ≤ maxHistoryLen
    ∧ ms.foldl addMessage [] = ms.drop (ms.length - maxHistoryLen)
    ∧ (ms.foldl addMessage []) <:+ ms := by
  have hloop : ∀ h : List ChatMessage,
      capHistoryLoop h = h.drop (h.length - maxHistoryLen) := by
    intro h
    rw [capHistoryLoop_eq]
    rfl
  have key : ∀ ms : List ChatMessage,
      ms.foldl addMessage [] = ms.drop (ms.length - maxHistoryLen) := by
    intro ms
    have hm : maxHistoryLen = 50 := rfl
    induction ms using List.reverseRecOn with
    | nil => rfl
    | append_singleton ms m ih =>
      rw [List.foldl_append, List.foldl_cons, List.foldl_nil, ih]
      unfold addMessage capHistory
      rcases Nat.lt_or_ge ms.length maxHistoryLen with hlt | hge
      · have h1 : ms.length - maxHistoryLen = 0 := by omega
        have h2 : (ms ++ [m]).length - maxHistoryLen = 0 := by
          simp only [List.length_append, List.length_singleton]
          omega
        rw [h1, h2, List.drop_zero, List.drop_zero]
        have h3 : (ms ++ [m]).length - maxHistoryLen = 0 := h2
        simp only [List.length_append, List.length_singleton, List.drop_zero]
        have : ms.length + 1 - maxHistoryLen = 0 := by omega
        rw [this, List.drop_zero]
      · have hlen : (ms.drop (ms.length - maxHistoryLen)).length = maxHistoryLen := by
          simp only [List.length_drop]
          omega
        have h1 : (ms.drop (ms.length - maxHistoryLen) ++ [m]).length - maxHistoryLen
            = 1 := by
          simp only [List.length_append, List.length_singleton, hlen]
          omega
        rw [h1]
        rw [List.drop_append_of_le_length (by rw [hlen]; omega)]
        rw [List.drop_drop]
        have h2 : (ms ++ [m]).length - maxHistoryLen = ms.length - maxHistoryLen + 1 := by
          simp only [List.length_append, List.length_singleton]
          omega
        rw [h2]
        rw [List.drop_append_of_le_length (by omega)]
  refine ⟨hloop, ?_, key ms, ?_⟩
  · rw [key ms]
    have hm : maxHistoryLen = 50 := rfl
    simp only [List.length_drop]
    omega
  · rw [key ms]
    exact List.drop_suffix _ _

/-! ## MCP Coordinator (`src/core/mcp_coordinator.py`)

The coordinator's registry is a Python dict keyed by qualified tool name;
it is embedded as an association list with dict-semantics lookup and
insert.  Client sessions are opaque handles; their behaviour
(`ClientSession.call_tool`) is a parameter mapping a handle, the tool's
unqualified name and arguments to a result or a raised exception. -/

/-- The fields of `mcp.types.Tool` the coordinator reads. -/
structure ToolDef where
  name : List Char
  description : List Char
deriving DecidableEq

/-- The `reliability` dict of a registry entry, as initialised on discovery
(line 82). -/
structure ReliabilityStats where
  success_count : Nat
  failure_count : Nat
  circuit_open : Bool
  last_failure : Option (List Char)
deriving DecidableEq

/-- The `performance` dict of a registry entry, as initialised on discovery
(line 83). -/
structure PerformanceStats where
  avg_response_time_ms : Nat
  call_count : Nat
  last_used : Option (List Char)
deriving DecidableEq

/-- `ToolRegistryEntry` from `mcp_coordinator.py`. -/
structure ToolRegistryEntry where
  qualified_name : List Char
  definition : ToolDef
  server_id : List Char
  client : Nat
  transport_type : List Char
  reliability : ReliabilityStats
  performance : PerformanceStats

/-- The registry dict `{qualified_name: entry}`. -/
abbrev Registry : Type := List (List Char × ToolRegistryEntry)

/-- Dict lookup (`qualified_tool_name in self.tool_registry` /
`self.tool_registry[name]`). -/
def dictGet (reg : Registry) (k : List Char) : Option ToolRegistryEntry :=
  match reg with
  | [] => none
  | p :: rest => if p.1 = k then some p.2 else dictGet rest k

/-- Dict assignment `self.tool_registry[qualified_name] = entry`: replace the
key's entry in place when the key exists (a Python dict keeps the insertion
position of an existing key, and registry keys are unique), append at the
end otherwise. -/
def dictInsert (reg : Registry) (k : List Char) (e : ToolRegistryEntry) : Registry :=
  match reg with
  | [] => [(k, e)]
  | p :: rest => if p.1 = k then (k, e) :: rest else p :: dictInsert rest k e

/-- `f"{server_id}:{tool.name}"`. -/
def qualifiedName (sid tname : List Char) : List Char := sid ++ ':' :: tname

/-- The behaviour of `ClientSession.call_tool` for each connection handle:
a result, or a raised provider-side exception. -/
def ClientBehaviour : Type := Nat → List Char → JVal → Except PyErr JVal

/-- The outcome of `MCPCoordinator.call_tool` as its caller sees it: a
result, the `ValueError` "Tool '…' not found in registry.", or the
re-raised provider-side exception. -/
inductive CallOutcome where
  | ok (v : JVal)
  | toolNotFound (q : List Char)
  | execError (e : PyErr)

/-- `MCPCoordinator.call_tool` (lines 213–227): look the qualified name up
in the registry; absent names raise the not-found `ValueError`; otherwise
invoke the entry's client with the entry's unqualified tool name and either
return the result or re-raise the provider-side exception.  The method
contains no write to `self.tool_registry`. -/
def callTool (cb : ClientBehaviour) (reg : Registry) (q : List Char) (args : JVal) :
    CallOutcome :=
  match dictGet reg q with
  | none => CallOutcome.toolNotFound q
  | some entry =>
    match cb entry.client entry.definition.name args with
    | Except.ok r => CallOutcome.ok r
    | Except.error e => CallOutcome.execError e

/-- The registry entry `_discover_tools_for_client` builds (lines 76–84),
with both statistics dicts at their initial values. -/
def mkEntry (sid : List Char) (t : ToolDef) (client : Nat)
    (transport : List Char) : ToolRegistryEntry :=
  { qualified_name := qualifiedName sid t.name
    definition := t
    server_id := sid
    client := client
    transport_type := transport
    reliability :=
      { success_count := 0, failure_count := 0, circuit_open := false,
        last_failure := none }
    performance :=
      { avg_response_time_ms := 0, call_count := 0, last_used := none } }

/-- The operations that touch the registry during a coordinator's life:
a provider's tool discovery (lines 74–84) and a tool call (lines 213–227,
which performs no registry write). -/
inductive CoordOp where
  | discover (sid : List Char) (tools : List ToolDef) (client : Nat)
      (transport : List Char)
  | call (q : List Char) (args : JVal)

/-- Effect of one operation on the registry. -/
def applyOp (reg : Registry) : CoordOp → Registry
  | CoordOp.discover sid tools client transport =>
      tools.foldl
        (fun r t => dictInsert r (qualifiedName sid t.name)
          (mkEntry sid t client transport)) reg
  | CoordOp.call _ _ => reg

theorem dictGet_insert (reg : Registry) (k : List Char) (e : ToolRegistryEntry)
    (k2 : List Char) :
    dictGet (dictInsert reg k e) k2 =
      if k2 = k then some e else dictGet reg k2 := by
  induction reg with
  | nil =>
    by_cases hk2 : k2 = k
    · subst hk2
      simp [dictInsert, dictGet]
    · have : ¬ k = k2 := fun hc => hk2 hc.symm
      simp [dictInsert, dictGet, hk2, this]
  | cons p rest ih =>
    by_cases hpk : p.1 = k
    · by_cases hk2 : k2 = k
      · subst hk2
        simp [dictInsert, dictGet, hpk]
      · have hkk2 : ¬ k = k2 := fun hc => hk2 hc.symm
        have hpk2 : ¬ p.1 = k2 := by
          rw [hpk]
          exact hkk2
        simp [dictInsert, dictGet, hpk, hk2, hkk2, hpk2]
    · by_cases hpk2 : p.1 = k2
      · have hk2 : ¬ k2 = k := by
          intro hc
          rw [hc] at hpk2
          exact hpk hpk2
        simp [dictInsert, dictGet, hpk, hpk2, hk2]
      · simp [dictInsert, dictGet, hpk, hpk2, ih]

/-! ## Claim C7: `call_tool` -/

/-- C7: `call_tool` fails with the "tool not found" condition exactly when
the qualified name is absent from the registry; for a present name it
invokes the entry's connection handle (with the entry's unqualified tool
name) and returns its result or propagates the provider-side error to the
caller; and the operation leaves the registry unchanged (the method
performs no registry write), so a provider-side error never damages the
coordinator's state. -/
theorem call_tool_spec (cb : ClientBehaviour) (reg : Registry) (q : List Char)
    (args : JVal) :
    (callTool cb reg q args = CallOutcome.toolNotFound q ↔ dictGet reg q = none)
    ∧ (∀ entry, dictGet reg q = some entry →
        (∀ r, cb entry.client entry.definition.name args = Except.ok r →
           callTool cb reg q args = CallOutcome.ok r)
        ∧ (∀ e, cb entry.client entry.definition.name args = Except.error e →
           callTool cb reg q args = CallOutcome.execError e))
    ∧ applyOp reg (CoordOp.call q args) = reg := by
  refine ⟨⟨?_, ?_⟩, ?_, rfl⟩
  · intro h
    unfold callTool at h
    cases hg : dictGet reg q with
    | none => rfl
    | some entry =>
      exfalso
      rw [hg] at h
      cases hcb : cb entry.client entry.definition.name args <;> simp [hcb] at h
  · intro h
    unfold callTool
    rw [h]
  · intro entry hg
    constructor
    · intro r hcb
      unfold callTool
      rw [hg]
      simp [hcb]
    · intro e hcb
      unfold callTool
      rw [hg]
      simp [hcb]

/-! ## Coordinator startup (`initialize`, lines 140–211, and
`_manage_server_connection`, lines 91–138)

The asyncio supervision is abstracted by summarising each provider task by
its observable behaviour during the bounded readiness wait:

* `ready tools`: the task connects, initialises, discovers `tools`
  (registering one entry per tool, lines 74–84) and sets its setup event in
  time — its wait task completes, so `initialize` counts it successful;
* `failBeforeReady`: the task raises (or hits an unsupported transport)
  before registering anything durable; it still sets its setup event
  (lines 115–131), and its `finally` block removes any of its entries
  (lines 132–138), so it contributes nothing to the registry;
* `timeout`: the task does not set its event within the 30 s wait — its
  wait task is pending, `initialize` cancels it and reports it failed
  (lines 178–186).  A timed-out task has registered nothing: registration
  is synchronous between `list_tools()` returning and the event being set,
  so a task that never reaches the event also never completed registration,
  and cancellation runs its `finally` deregistration in any case.

Each behaviour is a property of that provider's task alone, which is the
isolation the spec demands. -/

inductive ProviderBehaviour where
  | ready (tools : List ToolDef)
  | failBeforeReady
  | timeout
deriving DecidableEq

/-- The configured providers in config order, each with its behaviour. -/
abbrev ProviderSpec : Type := List (List Char × ProviderBehaviour)

/-- Whether a provider's wait task is still pending when the 30 s wait
returns. -/
def isTimeoutB : ProviderBehaviour → Bool
  | ProviderBehaviour.timeout => true
  | _ => false

/-- The providers `initialize` counts successful: exactly those whose wait
task completed (its setup event was set in time). -/
def startupSuccessful (providers : ProviderSpec) : List (List Char) :=
  (providers.filter (fun p => !isTimeoutB p.2)).map (fun p => p.1)

/-- The providers `initialize` cancels and reports failed: exactly those
whose wait task was still pending at the timeout. -/
def startupFailed (providers : ProviderSpec) : List (List Char) :=
  (providers.filter (fun p => isTimeoutB p.2)).map (fun p => p.1)

/-- The registry contents after startup: the discovered tools of every
provider that reached readiness; failed and timed-out providers contribute
nothing. -/
def startupRegistry (clientOf : List Char → Nat) (providers : ProviderSpec) :
    Registry :=
  providers.foldl
    (fun reg p => match p.2 with
      | ProviderBehaviour.ready tools =>
          applyOp reg (CoordOp.discover p.1 tools (clientOf p.1) ("stdio".toList))
      | _ => reg) []

theorem mem_dictInsert {reg : Registry} {k : List Char} {e : ToolRegistryEntry}
    {q : List Char × ToolRegistryEntry} (h : q ∈ dictInsert reg k e) :
    q ∈ reg ∨ q = (k, e) := by
  induction reg with
  | nil =>
    simp only [dictInsert, List.mem_singleton] at h
    exact Or.inr h
  | cons p rest ih =>
    unfold dictInsert at h
    split at h
    · rcases List.mem_cons.mp h with heq | hmem
      · exact Or.inr heq
      · exact Or.inl (List.mem_cons_of_mem _ hmem)
    · rcases List.mem_cons.mp h with heq | hmem
      · exact Or.inl (heq ▸ List.mem_cons_self _ _)
      · rcases ih hmem with hl | hr
        · exact Or.inl (List.mem_cons_of_mem _ hl)
        · exact Or.inr hr

theorem mem_discover_fold {sid : List Char} {client : Nat} {transport : List Char} :
    ∀ (tools : List ToolDef) (reg : Registry) (q : List Char × ToolRegistryEntry),
      q ∈ tools.foldl
        (fun r t => dictInsert r (qualifiedName sid t.name)
          (mkEntry sid t client transport)) reg →
      q ∈ reg ∨ ∃ t ∈ tools, q.1 = qualifiedName sid t.name := by
  intro tools
  induction tools with
  | nil => intro reg q h; exact Or.inl h
  | cons t tools ih =>
    intro reg q h
    simp only [List.foldl_cons] at h
    rcases ih _ q h with hl | ⟨t2, ht2, hq⟩
    · rcases mem_dictInsert hl with hl2 | hr2
      · exact Or.inl hl2
      · refine Or.inr ⟨t, List.mem_cons_self _ _, ?_⟩
        rw [hr2]
    · exact Or.inr ⟨t2, List.mem_cons_of_mem _ ht2, hq⟩

theorem mem_startupRegistry (clientOf : List Char → Nat) :
    ∀ (providers : ProviderSpec) (reg : Registry)
      (q : List Char × ToolRegistryEntry),
      q ∈ providers.foldl
        (fun reg p => match p.2 with
          | ProviderBehaviour.ready tools =>
              applyOp reg (CoordOp.discover p.1 tools (clientOf p.1) ("stdio".toList))
          | _ => reg) reg →
      q ∈ reg ∨ ∃ sid tools t, (sid, ProviderBehaviour.ready tools) ∈ providers ∧
        t ∈ tools ∧ q.1 = qualifiedName sid t.name := by
  intro providers
  induction providers with
  | nil => intro reg q h; exact Or.inl h
  | cons p providers ih =>
    intro reg q h
    simp only [List.foldl_cons] at h
    rcases ih _ q h with hl | ⟨sid, tools, t, hmem, ht, hq⟩
    · cases hp : p.2 with
      | ready tools =>
        rw [hp] at hl
        simp only [applyOp] at hl
        rcases mem_discover_fold tools reg q hl with hl2 | ⟨t, ht, hq⟩
        · exact Or.inl hl2
        · refine Or.inr ⟨p.1, tools, t, ?_, ht, hq⟩
          rw [← hp]
          exact List.mem_cons_self _ _
      | failBeforeReady =>
        rw [hp] at hl
        exact Or.inl hl
      | timeout =>
        rw [hp] at hl
        exact Or.inl hl
    · exact Or.inr ⟨sid, tools, t, List.mem_cons_of_mem _ hmem, ht, hq⟩

theorem dictGet_some_mem {reg : Registry} {k : List Char} {e : ToolRegistryEntry}
    (h : dictGet reg k = some e) : (k, e) ∈ reg := by
  induction reg with
  | nil => cases h
  | cons p rest ih =>
    unfold dictGet at h
    split at h
    · rename_i hpk
      cases h
      rw [← hpk]
      exact List.mem_cons_self _ _
    · exact List.mem_cons_of_mem _ (ih h)

theorem qualifiedName_inj : ∀ {s1 : List Char} (t1 : List Char) {s2 : List Char}
    (t2 : List Char), ':' ∉ s1 → ':' ∉ s2 →
    qualifiedName s1 t1 = qualifiedName s2 t2 → s1 = s2 ∧ t1 = t2 := by
  intro s1
  induction s1 with
  | nil =>
    intro t1 s2 t2 h1 h2 h
    cases s2 with
    | nil =>
      simp only [qualifiedName, List.nil_append, List.cons.injEq] at h
      exact ⟨rfl, h.2⟩
    | cons d s2 =>
      exfalso
      simp only [qualifiedName, List.nil_append, List.cons_append,
        List.cons.injEq] at h
      exact h2 (h.1 ▸ List.mem_cons_self _ _)
  | cons c s1 ih =>
    intro t1 s2 t2 h1 h2 h
    cases s2 with
    | nil =>
      exfalso
      simp only [qualifiedName, List.nil_append, List.cons_append,
        List.cons.injEq] at h
      exact h1 (h.1 ▸ List.mem_cons_self _ _)
    | cons d s2 =>
      simp only [qualifiedName, List.cons_append, List.cons.injEq] at h
      have h1t : ':' ∉ s1 := fun hc => h1 (List.mem_cons_of_mem _ hc)
      have h2t : ':' ∉ s2 := fun hc => h2 (List.mem_cons_of_mem _ hc)
      obtain ⟨hs, ht⟩ := ih t1 t2 h1t h2t h.2
      exact ⟨by rw [h.1, hs], ht⟩

theorem nodup_keys_eq {α β : Type} : ∀ (l : List (α × β)),
    (l.map Prod.fst).Nodup → ∀ {a : α} {b1 b2 : β},
    (a, b1) ∈ l → (a, b2) ∈ l → b1 = b2 := by
  intro l
  induction l with
  | nil => intro _ a b1 b2 h1 _; cases h1
  | cons p rest ih =>
    intro hnd a b1 b2 h1 h2
    simp only [List.map_cons, List.nodup_cons] at hnd
    rcases List.mem_cons.mp h1 with he1 | hm1 <;>
      rcases List.mem_cons.mp h2 with he2 | hm2
    · rw [← he1] at he2
      cases he2
      rfl
    · exfalso
      apply hnd.1
      have hp1 : p.1 = a := by rw [← he1]
      rw [hp1]
      exact List.mem_map.mpr ⟨(a, b2), hm2, rfl⟩
    · exfalso
      apply hnd.1
      have hp1 : p.1 = a := by rw [← he2]
      rw [hp1]
      exact List.mem_map.mpr ⟨(a, b1), hm1, rfl⟩
    · exact ih hnd.2 hm1 hm2

/-! ## Claim C8: bounded startup, isolation, and failed providers -/

/-- C8: with N configured providers of which K exceed the bounded startup
wait, exactly N−K are counted successful and K are cancelled and reported
failed; whether a provider succeeds depends only on its own behaviour (one
provider's failure never prevents another from succeeding); and every tool
owned by a timed-out provider is absent from the registry, so `call_tool`
on it raises "tool not found".  Provider ids are assumed colon-free (the
qualified-name scheme `server_id:tool_name` is unambiguous then) and
distinct (they are the keys of the config dict). -/
theorem coordinator_startup (providers : ProviderSpec)
    (clientOf : List Char → Nat) (cb : ClientBehaviour) (args : JVal)
    (hnd : (providers.map Prod.fst).Nodup)
    (hnc : ∀ p ∈ providers, ':' ∉ p.1) :
    (startupSuccessful providers).length =
      providers.length - (providers.filter (fun p => isTimeoutB p.2)).length
    ∧ (startupFailed providers).length =
        (providers.filter (fun p => isTimeoutB p.2)).length
    ∧ (∀ sid tools, (sid, ProviderBehaviour.ready tools) ∈ providers →
        sid ∈ startupSuccessful providers)
    ∧ (∀ sid, (sid, ProviderBehaviour.timeout) ∈ providers →
        sid ∈ startupFailed providers)
    ∧ (∀ sid tname, (sid, ProviderBehaviour.timeout) ∈ providers →
        callTool cb (startupRegistry clientOf providers)
          (qualifiedName sid tname) args =
          CallOutcome.toolNotFound (qualifiedName sid tname)) := by
  have hsum : ∀ (l : ProviderSpec),
      (l.filter (fun p => !isTimeoutB p.2)).length +
        (l.filter (fun p => isTimeoutB p.2)).length = l.length := by
    intro l
    induction l with
    | nil => rfl
    | cons p rest ih =>
      cases hb : isTimeoutB p.2 <;> simp [List.filter_cons, hb] <;> omega
  refine ⟨?_, ?_, ?_, ?_, ?_⟩
  · unfold startupSuccessful
    rw [List.length_map]
    have := hsum providers
    omega
  · unfold startupFailed
    rw [List.length_map]
  · intro sid tools hmem
    unfold startupSuccessful
    refine List.mem_map.mpr ⟨(sid, ProviderBehaviour.ready tools), ?_, rfl⟩
    refine List.mem_filter.mpr ⟨hmem, ?_⟩
    rfl
  · intro sid hmem
    unfold startupFailed
    refine List.mem_map.mpr ⟨(sid, ProviderBehaviour.timeout), ?_, rfl⟩
    refine List.mem_filter.mpr ⟨hmem, rfl⟩
  · intro sid tname hmem
    have hnone : dictGet (startupRegistry clientOf providers)
        (qualifiedName sid tname) = none := by
      cases hg : dictGet (startupRegistry clientOf providers)
          (qualifiedName sid tname) with
      | none => rfl
      | some e =>
        exfalso
        have hmem2 := dictGet_some_mem hg
        unfold startupRegistry at hmem2
        rcases mem_startupRegistry clientOf providers [] _ hmem2 with
          h0 | ⟨sid2, tools, t, hp2, ht, hq⟩
        · cases h0
        · have hq2 : qualifiedName sid tname = qualifiedName sid2 t.name := hq
          have hnc1 : ':' ∉ sid := hnc _ hmem
          have hnc2 : ':' ∉ sid2 := hnc _ hp2
          obtain ⟨hs, -⟩ := qualifiedName_inj tname t.name hnc1 hnc2 hq2
          subst hs
          have := nodup_keys_eq providers hnd hmem hp2
          cases this
    unfold callTool
    rw [hnone]

/-- A concrete provider configuration for the witness: one provider becomes
ready with one tool, one times out, one fails before readiness. -/
def providersW : ProviderSpec :=
  [(("alpha".toList), ProviderBehaviour.ready [⟨("t1".toList), ("desc".toList)⟩]),
   (("beta".toList), ProviderBehaviour.timeout),
   (("gamma".toList), ProviderBehaviour.failBeforeReady)]

/-- Witness for C8 at a concrete configuration: calling a tool of the
timed-out provider fails with "tool not found". -/
theorem coordinator_startup_witness :
    callTool (fun _ _ _ => Except.ok JVal.null)
      (startupRegistry (fun _ => 0) providersW)
      (qualifiedName ("beta".toList) ("t1".toList)) JVal.null =
      CallOutcome.toolNotFound (qualifiedName ("beta".toList) ("t1".toList)) :=
  (coordinator_startup providersW (fun _ => 0) (fun _ _ _ => Except.ok JVal.null)
    JVal.null (by decide) (by decide)).2.2.2.2 ("beta".toList) ("t1".toList)
    (by decide)

/-! ## Claim C9: reliability/performance statistics are never updated -/

/-- `self.circuit_threshold = 5` (line 49; "kept for potential future use",
read nowhere else in the coordinator). -/
def circuitThreshold : Nat := 5

/-- `self.circuit_reset_time_ms = 60000` (line 50; likewise never read). -/
def circuitResetTimeMs : Nat := 60000

theorem mem_discover_fold_entry {sid : List Char} {client : Nat}
    {transport : List Char} :
    ∀ (tools : List ToolDef) (reg : Registry) (q : List Char × ToolRegistryEntry),
      q ∈ tools.foldl
        (fun r t => dictInsert r (qualifiedName sid t.name)
          (mkEntry sid t client transport)) reg →
      q ∈ reg ∨ ∃ t ∈ tools,
        q = (qualifiedName sid t.name, mkEntry sid t client transport) := by
  intro tools
  induction tools with
  | nil => intro reg q h; exact Or.inl h
  | cons t tools ih =>
    intro reg q h
    simp only [List.foldl_cons] at h
    rcases ih _ q h with hl | ⟨t2, ht2, hq⟩
    · rcases mem_dictInsert hl with hl2 | hr2
      · exact Or.inl hl2
      · exact Or.inr ⟨t, List.mem_cons_self _ _, hr2⟩
    · exact Or.inr ⟨t2, List.mem_cons_of_mem _ ht2, hq⟩

/-- C9: no coordinator operation ever updates a registry entry's
reliability or performance statistics — in every registry reachable from
startup by any sequence of discoveries and tool calls, every entry still
carries the initial statistics (`success_count` 0, `failure_count` 0,
`circuit_open` false, no recorded failure; `avg_response_time_ms` 0,
`call_count` 0, no recorded use) — and `call_tool` never rejects a call
because of an open circuit breaker: even for an entry whose
`circuit_open` flag is true, the provider is invoked and its outcome
returned, the configured `circuit_threshold` notwithstanding. -/
theorem stats_never_updated (ops : List CoordOp) (cb : ClientBehaviour)
    (reg : Registry) (k : List Char) (a : JVal) (entry : ToolRegistryEntry) :
    (∀ k2 e, dictGet (ops.foldl applyOp []) k2 = some e →
       e.reliability =
         { success_count := 0, failure_count := 0, circuit_open := false,
           last_failure := none }
       ∧ e.performance =
         { avg_response_time_ms := 0, call_count := 0, last_used := none })
    ∧ (dictGet reg k = some entry → entry.reliability.circuit_open = true →
        callTool cb reg k a =
          match cb entry.client entry.definition.name a with
          | Except.ok r => CallOutcome.ok r
          | Except.error e => CallOutcome.execError e) := by
  constructor
  · have main : ∀ (ops : List CoordOp) (reg : Registry),
        (∀ q ∈ reg, q.2.reliability =
            { success_count := 0, failure_count := 0, circuit_open := false,
              last_failure := none }
          ∧ q.2.performance =
            { avg_response_time_ms := 0, call_count := 0, last_used := none }) →
        ∀ q ∈ ops.foldl applyOp reg, q.2.reliability =
            { success_count := 0, failure_count := 0, circuit_open := false,
              last_failure := none }
          ∧ q.2.performance =
            { avg_response_time_ms := 0, call_count := 0, last_used := none } := by
      intro ops
      induction ops with
      | nil => intro reg hreg q hq; exact hreg q hq
      | cons op ops ih =>
        intro reg hreg q hq
        simp only [List.foldl_cons] at hq
        refine ih (applyOp reg op) ?_ q hq
        intro q2 hq2
        cases op with
        | call q3 a3 => exact hreg q2 hq2
        | discover sid tools client transport =>
          simp only [applyOp] at hq2
          rcases mem_discover_fold_entry tools reg q2 hq2 with hl | ⟨t, _, hq3⟩
          · exact hreg q2 hl
          · rw [hq3]
            exact ⟨rfl, rfl⟩
    intro k2 e hget
    exact main ops [] (by intro q hq; cases hq) _ (dictGet_some_mem hget)
  · intro hget _
    unfold callTool
    rw [hget]

/-! ## Claim C10: `generate_response` never raises -/

/-- One event of the raw adapter stream consumed by `_parse_stream`:
either a text fragment yielded by `stream_generate`, or an exception
raised by the adapter mid-iteration, surfacing at the `async for` of
line 217. -/
inductive StreamEv where
  | chunk (c : List Char)
  | raiseEv (e : PyErr)

/-- `_parse_stream` (lines 199–240) on a raw stream that may raise: each
fragment is appended to the buffer and drained by the inner loop
(`processBuffer`); at normal stream end the leftover buffer is flushed
(line 238); if the stream raises, the `except` of lines 239–240 yields a
single "Error receiving data from LLM adapter" `ErrorInfo` and the
generator ends — the pending buffer is NOT flushed then, since the
flush sits inside the `try`. -/
def parseStreamEvGo (jd : JDecoder) : List Char → List StreamEv → List RPart
  | buffer, [] => flushBuf buffer
  | buffer, StreamEv.chunk c :: evs =>
      (processBuffer jd (buffer ++ c)).1 ++
        parseStreamEvGo jd (processBuffer jd (buffer ++ c)).2 evs
  | _, StreamEv.raiseEv _ :: _ => [RPart.adapterError]

/-- `_parse_stream` started on the empty buffer. -/
def parseStreamEv (jd : JDecoder) (evs : List StreamEv) : List RPart :=
  parseStreamEvGo jd [] evs

/-- Behaviour of one `generate_response` call's setup and adapter: either
some step before iteration (prompt compilation of line 264, or the
`stream_generate` call of line 284) raises, or the adapter produces a
stream of events. -/
inductive AdapterBeh where
  | setupFail (e : PyErr)
  | stream (evs : List StreamEv)

/-- `LLMService.generate_response` (lines 242–296): run setup, then
forward every part of `_parse_stream`; any exception is caught by the
`except` of lines 292–296 and surfaced as a single "Failed to generate
LLM response" `ErrorInfo`, after which the generator ends.  That this is
a total function into `List RPart` — not into `Except` — is the model of
"never raises to the consumer". -/
def generateResponse (jd : JDecoder) : AdapterBeh → List RPart
  | AdapterBeh.setupFail _ => [RPart.generateError]
  | AdapterBeh.stream evs => parseStreamEv jd evs

/-- The parts drained by the fragment loop over a chunk list, with no
final buffer flush. -/
def drainChunks (jd : JDecoder) : List Char → List (List Char) → List RPart
  | _, [] => []
  | buffer, c :: cs =>
      (processBuffer jd (buffer ++ c)).1 ++
        drainChunks jd (processBuffer jd (buffer ++ c)).2 cs

theorem parseStreamEvGo_chunks (jd : JDecoder) :
    ∀ (cs : List (List Char)) (b : List Char),
      parseStreamEvGo jd b (cs.map StreamEv.chunk) = parseChunksGo jd b cs := by
  intro cs
  induction cs with
  | nil => intro b; rfl
  | cons c cs ih =>
    intro b
    simp only [List.map_cons, parseStreamEvGo, parseChunksGo, ih]

theorem parseStreamEvGo_raise (jd : JDecoder) (e : PyErr) (evs : List StreamEv) :
    ∀ (cs : List (List Char)) (b : List Char),
      parseStreamEvGo jd b (cs.map StreamEv.chunk ++ StreamEv.raiseEv e :: evs) =
        drainChunks jd b cs ++ [RPart.adapterError] := by
  intro cs
  induction cs with
  | nil => intro b; rfl
  | cons c cs ih =>
    intro b
    simp only [List.map_cons, List.cons_append, parseStreamEvGo, drainChunks,
      List.append_eq, ih, List.append_assoc]

/-- C10: `generate_response` never raises an exception to its consumer —
for every decoder and adapter behaviour it yields a (total) list of
parts: if setup fails, the single part is the "Failed to generate LLM
response" `ErrorInfo` and the stream ends; if the adapter stream ends
normally, the output is exactly the `_parse_stream` parsing of the
fragments; and if the adapter raises mid-stream, the parts drained so
far are followed by exactly one "Error receiving data from LLM adapter"
`ErrorInfo`, after which the stream ends normally. -/
theorem generate_response_never_raises (jd : JDecoder) (e : PyErr)
    (cs : List (List Char)) (evs : List StreamEv) :
    generateResponse jd (AdapterBeh.setupFail e) = [RPart.generateError]
    ∧ generateResponse jd (AdapterBeh.stream (cs.map StreamEv.chunk)) =
        parseStream jd cs
    ∧ generateResponse jd
        (AdapterBeh.stream (cs.map StreamEv.chunk ++ StreamEv.raiseEv e :: evs)) =
        drainChunks jd [] cs ++ [RPart.adapterError] := by
  refine ⟨rfl, ?_, ?_⟩
  · exact parseStreamEvGo_chunks jd cs []
  · exact parseStreamEvGo_raise jd e evs cs []
